import Mathlib

/-!
A shallow embedding of the prompt discovery and resolution pipeline of the
`tam-filesystem-mcp` repository (an MCP filesystem server extension with
Obsidian-aware prompt management), together with theorems about its
behaviour.

The embedding follows the TypeScript source: `PromptManager`
(`discoverPrompt`, `findExactMatch`, `findByAlias`, `findFuzzyMatch`,
`findByContent`, `calculateFuzzyScore`, `countCommonCharacters`,
`substituteVariables`, `mergeVariablesWithDefaults`, `getPrompted`),
`ObsidianUtils` (`parseObsidianFile`, `extractVariableSpecs`,
`parseVariableSpec`, `validateVariables`, `validateVariableType`,
`normalizeAliases`, `normalizeTags`) and the security helper
`isAllowedFileType`.  Strings are modelled by Lean `String` (a list of
Unicode scalar values; JavaScript strings are UTF-16 code unit sequences,
which agrees on the basic multilingual plane).  JavaScript numbers are
modelled by `ℚ`: the caller-supplied variable bindings arrive as JSON over
MCP, and JSON cannot express `NaN` or `Infinity`, so every number value in
scope is a finite rational.
-/

namespace TamFS

/-- JS-style values, as they occur both in caller-supplied variable bindings
and in parsed frontmatter metadata. -/
inductive JsValue where
  | vstr (s : String)
  | vnum (q : ℚ)
  | vbool (b : Bool)
  | vnull
  | varr (xs : List JsValue)
  | vobj (kvs : List (String × JsValue))

/-- JS `typeof` (on the modelled values; `typeof null = "object"`). -/
def jsTypeof : JsValue → String
  | .vstr _ => "string"
  | .vnum _ => "number"
  | .vbool _ => "boolean"
  | .vnull => "object"
  | .varr _ => "object"
  | .vobj _ => "object"

/-- JS string coercion `String(value)`.  Number formatting is approximated
(integers render exactly as in JS; non-integral rationals render as
`num/den`, where JS would use decimal notation — no claim exercises this). -/
def jsToString : JsValue → String
  | .vstr s => s
  | .vnum q => if q.den = 1 then toString q.num else toString q
  | .vbool b => if b then "true" else "false"
  | .vnull => "null"
  | .varr _ => "array"
  | .vobj _ => "[object Object]"

/-- JS truthiness. -/
def truthy : JsValue → Bool
  | .vstr s => s ≠ ""
  | .vnum q => q ≠ 0
  | .vbool b => b
  | .vnull => false
  | .varr _ => true
  | .vobj _ => true

/-- Structural equality on modelled JS values; models `===` for the
primitive values that occur in variable bindings and `options` lists. -/
def jsBeq : JsValue → JsValue → Bool
  | .vstr a, .vstr b => a = b
  | .vnum a, .vnum b => a = b
  | .vbool a, .vbool b => a = b
  | .vnull, .vnull => true
  | .varr a, .varr b => jsBeqArr a b
  | .vobj a, .vobj b => jsBeqObj a b
  | _, _ => false
where
  jsBeqArr : List JsValue → List JsValue → Bool
    | [], [] => true
    | x :: xs, y :: ys => jsBeq x y && jsBeqArr xs ys
    | _, _ => false
  jsBeqObj : List (String × JsValue) → List (String × JsValue) → Bool
    | [], [] => true
    | (k, x) :: xs, (k2, y) :: ys => k = k2 && jsBeq x y && jsBeqObj xs ys
    | _, _ => false

/-- First-match association lookup: models JS property access `obj[key]`
(objects built by the pipeline have unique keys). `none` models
`undefined`. -/
def alookup (l : List (String × JsValue)) (k : String) : Option JsValue :=
  (l.find? (fun p => p.1 = k)).map (·.2)

/-- JS object property assignment `obj[k] = v`: an existing key keeps its
insertion position and gets the new value; a new key is appended. -/
def updateAssoc (l : List (String × JsValue)) (k : String) (v : JsValue) :
    List (String × JsValue) :=
  if l.any (fun p => p.1 = k) then
    l.map (fun p => if p.1 = k then (k, v) else p)
  else l ++ [(k, v)]

/-- The whitespace characters of JS `\s` that occur in vault documents
(ASCII whitespace; JS additionally treats some rarer Unicode space
code points as whitespace). -/
def isWs (c : Char) : Bool :=
  c = ' ' || c = '\t' || c = '\n' || c = '\r' || c = '\x0b' || c = '\x0c'

/-- JS `String.prototype.trim()` on a character list: strip leading and
trailing whitespace, keep interior whitespace. -/
def trimL (l : List Char) : List Char :=
  ((l.dropWhile isWs).reverse.dropWhile isWs).reverse

/-- JS `String.prototype.trim()`. -/
def trimStr (s : String) : String := ⟨trimL s.data⟩

/-- JS `String.prototype.toLowerCase()`. -/
def toLowerStr (s : String) : String := ⟨s.data.map Char.toLower⟩

/-- JS `[...new Set(list)]`: remove duplicates, keeping the first
occurrence of each element in its original position. -/
def dedupFirst : List String → List String
  | [] => []
  | x :: xs => x :: dedupFirst (xs.filter (fun y => y ≠ x))
termination_by l => l.length
decreasing_by simp only [List.length_cons]; exact Nat.lt_succ_of_le (List.length_filter_le _ _)

/-- JS `String.prototype.split(sep)` with a single-character separator:
every separator occurrence splits, adjacent separators produce empty
segments, the result is never empty. -/
def splitChar (sep : Char) : List Char → List (List Char)
  | [] => [[]]
  | c :: cs =>
    if c = sep then [] :: splitChar sep cs
    else
      match splitChar sep cs with
      | [] => [[c]]
      | t :: ts => (c :: t) :: ts

theorem length_dropWhile_le (p : Char → Bool) (l : List Char) :
    (l.dropWhile p).length ≤ l.length := by
  induction l with
  | nil => simp [List.dropWhile]
  | cons a t ih =>
    by_cases h : p a
    · simp only [List.dropWhile_cons, h, if_true]
      exact le_trans ih (by simp)
    · simp [List.dropWhile_cons, h]

/-- JS `String.prototype.split(regex)` where the regex is a `+`-quantified
character class: maximal runs of separator characters split the string
(a separator whose successor is also a separator extends the current run);
a leading/trailing run produces a leading/trailing empty segment. -/
def splitRuns (p : Char → Bool) : List Char → List (List Char)
  | [] => [[]]
  | c :: cs =>
    if p c then
      if (cs.head?.map p).getD false then splitRuns p cs
      else [] :: splitRuns p cs
    else
      match splitRuns p cs with
      | [] => [[c]]
      | t :: ts => (c :: t) :: ts

/-- JS `hay.includes(needle)` (substring containment; the empty needle is
always contained). -/
def substrB (needle hay : List Char) : Bool :=
  hay.tails.any (fun t => needle.isPrefixOf t)

/-! ## Substitution engine (`PromptManager.substituteVariables`)

The source replaces every match of the global regex `\{\{([^}]+)\}\}` in a
single left-to-right pass.  A match consists of two opening braces, a
non-empty maximal run of non-`}` characters (the variable expression), and
two closing braces; where no match starts, scanning advances one
character. -/

/-- Helper for `grabExpr`: collect the maximal run of non-`}` characters
and then require the two literal closing braces of the regex. -/
def grabExprAux : List Char → Option (List Char × List Char)
  | [] => none
  | c :: cs =>
    if c = '\x7d' then
      match cs with
      | '\x7d' :: r => some ([], r)
      | _ => none
    else (grabExprAux cs).map (fun p => (c :: p.1, p.2))

/-- Attempt to read `expr}}rest` at the current position, where `expr` is
the non-empty maximal run of non-`}` characters matched by `([^}]+)`
followed by the two literal closing braces of the regex (the quantifier
`[^}]+` requires at least one non-`}` character). -/
def grabExpr (l : List Char) : Option (List Char × List Char) :=
  match l with
  | [] => none
  | c :: _ => if c = '\x7d' then none else grabExprAux l

theorem grabExprAux_some : ∀ {l e r : List Char}, grabExprAux l = some (e, r) →
    l = e ++ '\x7d' :: '\x7d' :: r ∧ ∀ c ∈ e, c ≠ '\x7d' := by
  intro l
  induction l with
  | nil => intro e r h; simp [grabExprAux] at h
  | cons c cs ih =>
    intro e r h
    by_cases hc : c = '\x7d'
    · simp only [grabExprAux, hc, if_true] at h
      match hm : cs with
      | [] => simp at h
      | c2 :: r2 =>
        by_cases h2 : c2 = '\x7d'
        · subst h2; simp at h
          obtain ⟨he, hr⟩ := h
          subst he; subst hr; subst hc
          simp
        · have : (match c2 :: r2 with
              | '\x7d' :: r => some (([] : List Char), r)
              | _ => none) = none := by
            simp [h2]
          rw [this] at h; simp at h
    · simp only [grabExprAux, hc, if_false] at h
      match hg : grabExprAux cs with
      | none => rw [hg] at h; simp at h
      | some (e2, r2) =>
        rw [hg] at h
        simp at h
        obtain ⟨he, hr⟩ := h
        obtain ⟨hcs, hall⟩ := ih hg
        constructor
        · rw [← he, ← hr]; simp [hcs]
        · rw [← he]
          intro x hx
          rcases List.mem_cons.1 hx with h1 | h1
          · subst h1; exact hc
          · exact hall x h1

theorem grabExpr_some {l e r : List Char} (h : grabExpr l = some (e, r)) :
    l = e ++ '\x7d' :: '\x7d' :: r ∧ e ≠ [] ∧ ∀ c ∈ e, c ≠ '\x7d' := by
  match l with
  | [] => simp [grabExpr] at h
  | c :: cs =>
    by_cases hc : c = '\x7d'
    · simp [grabExpr, hc] at h
    · simp only [grabExpr, hc, if_false] at h
      obtain ⟨hl, hall⟩ := grabExprAux_some h
      refine ⟨hl, ?_, hall⟩
      intro he
      subst he
      simp at hl
      exact hc hl.1

theorem grabExpr_length {l e r : List Char} (h : grabExpr l = some (e, r)) :
    r.length + 2 ≤ l.length := by
  obtain ⟨hl, -, -⟩ := grabExpr_some h
  subst hl
  simp

/-- One left-to-right pass of
`content.replace(/\{\{([^}]+)\}\}/g, (match, varExpression) => ...)`:
the replacement callback splits the expression on `:`, trims the segments,
and resolves the first segment (the variable name) against `variables`,
falling back to the second segment (the default literal) and otherwise
keeping the matched text and pushing the name onto `missingVariables`.
`used` and `missing` are the callback's accumulated side effects. -/
def substAux (vars : List (String × JsValue)) :
    List Char → List (String × JsValue) → List String →
    List Char × List (String × JsValue) × List String
  | [], used, missing => ([], used, missing)
  | [c], used, missing => ([c], used, missing)
  | c1 :: c2 :: rest, used, missing =>
    if c1 = '\x7b' ∧ c2 = '\x7b' then
      match h : grabExpr rest with
      | some (expr, rest2) =>
        let segs := (splitChar ':' expr).map trimL
        let varName : String := ⟨segs.headD []⟩
        match alookup vars varName with
        | some v =>
          let r := substAux vars rest2 (updateAssoc used varName v) missing
          ((jsToString v).data ++ r.1, r.2)
        | none =>
          match segs.get? 1 with
          | some d =>
            let r := substAux vars rest2 (updateAssoc used varName (.vstr ⟨d⟩)) missing
            (d ++ r.1, r.2)
          | none =>
            let r := substAux vars rest2 used (missing ++ [varName])
            (c1 :: c2 :: (expr ++ '\x7d' :: '\x7d' :: r.1), r.2)
      | none =>
        let r := substAux vars (c2 :: rest) used missing
        (c1 :: r.1, r.2)
    else
      let r := substAux vars (c2 :: rest) used missing
      (c1 :: r.1, r.2)
termination_by l _ _ => l.length
decreasing_by
  · have := grabExpr_length h; simp; omega
  · have := grabExpr_length h; simp; omega
  · have := grabExpr_length h; simp; omega
  · simp
  · simp

/-- The result record of `substituteVariables`. -/
structure SubstResult where
  content : String
  usedVariables : List (String × JsValue)
  missingVariables : List String

/-- `PromptManager.substituteVariables`: resolve every
`{{variable}}` / `{{variable:default}}` placeholder in `content` against
the bindings (the source calls the parameter `variables`, which is a
reserved word in Lean); the missing list is de-duplicated at the end by
`[...new Set(missingVariables)]`. -/
def substituteVariables (content : String) (vars : List (String × JsValue)) :
    SubstResult :=
  let r := substAux vars content.data [] []
  ⟨⟨r.1⟩, r.2.1, dedupFirst r.2.2⟩

/-- The raw (pre-de-duplication) sequence of missing-variable pushes made by
the substitution pass, in placeholder order. -/
def substMissingRaw (content : String) (vars : List (String × JsValue)) :
    List String :=
  (substAux vars content.data [] []).2.2

theorem grabExprAux_shape (e post : List Char) (hne : ∀ c ∈ e, c ≠ '\x7d') :
    grabExprAux (e ++ '\x7d' :: '\x7d' :: post) = some (e, post) := by
  induction e with
  | nil => simp [grabExprAux]
  | cons a t ih =>
    have ha : a ≠ '\x7d' := hne a (by simp)
    simp only [List.cons_append, grabExprAux, ha, if_false, List.append_eq]
    rw [ih (fun c hc => hne c (by simp [hc]))]
    rfl

theorem grabExpr_shape (e post : List Char) (he : e ≠ [])
    (hne : ∀ c ∈ e, c ≠ '\x7d') :
    grabExpr (e ++ '\x7d' :: '\x7d' :: post) = some (e, post) := by
  match e, he with
  | a :: t, _ =>
    have ha : a ≠ '\x7d' := hne a (by simp)
    simp only [List.cons_append, grabExpr, ha, if_false]
    have := grabExprAux_shape (a :: t) post hne
    simpa using this

/-- Character lists that contain no opening brace are copied through the
substitution scan unchanged, with no effect on the accumulators. -/
theorem substAux_append (vars : List (String × JsValue)) (l1 l2 : List Char)
    (h : ∀ c ∈ l1, c ≠ '\x7b') (u : List (String × JsValue)) (m : List String) :
    substAux vars (l1 ++ l2) u m =
      ((l1 ++ (substAux vars l2 u m).1, (substAux vars l2 u m).2)) := by
  induction l1 with
  | nil => simp
  | cons a t ih =>
    have ha : a ≠ '\x7b' := h a (by simp)
    match ht : t ++ l2 with
    | [] =>
      have h1 : t = [] := by
        cases t with
        | nil => rfl
        | cons x xs => simp at ht
      have h2 : l2 = [] := by
        rw [h1] at ht; simpa using ht
      subst h1; subst h2
      simp [substAux]
    | b :: rest =>
      have step : substAux vars (a :: b :: rest) u m =
          (a :: (substAux vars (b :: rest) u m).1,
           (substAux vars (b :: rest) u m).2) := by
        conv_lhs => rw [substAux]
        rw [if_neg (fun hh => ha hh.1)]
      calc substAux vars ((a :: t) ++ l2) u m
          = substAux vars (a :: b :: rest) u m := by
            rw [List.cons_append, ht]
        _ = (a :: (substAux vars (b :: rest) u m).1,
             (substAux vars (b :: rest) u m).2) := step
        _ = (a :: (substAux vars (t ++ l2) u m).1,
             (substAux vars (t ++ l2) u m).2) := by rw [ht]
        _ = ((a :: t) ++ (substAux vars l2 u m).1,
             (substAux vars l2 u m).2) := by
              rw [ih (fun c hc => h c (by simp [hc]))]
              simp

/-- Unfolding the substitution scan at a well-formed placeholder
`{{expr}}` (with `expr` non-empty and free of closing braces): the
expression is split on `:`, segments are trimmed, and the head segment is
resolved against the bindings with fallback to the second segment. -/
theorem substAux_match (vars : List (String × JsValue)) (expr post : List Char)
    (he : expr ≠ []) (hne : ∀ c ∈ expr, c ≠ '\x7d')
    (u : List (String × JsValue)) (m : List String) :
    substAux vars ('\x7b' :: '\x7b' :: (expr ++ '\x7d' :: '\x7d' :: post)) u m =
      (match alookup vars ⟨(((splitChar ':' expr).map trimL).headD [])⟩ with
       | some v =>
         ((jsToString v).data ++
            (substAux vars post
              (updateAssoc u ⟨(((splitChar ':' expr).map trimL).headD [])⟩ v) m).1,
          (substAux vars post
              (updateAssoc u ⟨(((splitChar ':' expr).map trimL).headD [])⟩ v) m).2)
       | none =>
         match ((splitChar ':' expr).map trimL).get? 1 with
         | some d =>
           (d ++ (substAux vars post
               (updateAssoc u ⟨(((splitChar ':' expr).map trimL).headD [])⟩
                 (.vstr ⟨d⟩)) m).1,
            (substAux vars post
               (updateAssoc u ⟨(((splitChar ':' expr).map trimL).headD [])⟩
                 (.vstr ⟨d⟩)) m).2)
         | none =>
           ('\x7b' :: '\x7b' :: (expr ++ '\x7d' :: '\x7d' ::
              (substAux vars post u
                (m ++ [(⟨(((splitChar ':' expr).map trimL).headD [])⟩ : String)])).1),
            (substAux vars post u
                (m ++ [(⟨(((splitChar ':' expr).map trimL).headD [])⟩ : String)])).2)) := by
  conv_lhs => rw [substAux]
  rw [if_pos ⟨rfl, rfl⟩]
  rw [grabExpr_shape expr post he hne]

/-- Scanning a brace-free list is the identity. -/
theorem substAux_pass (vars : List (String × JsValue)) (l : List Char)
    (h : ∀ c ∈ l, c ≠ '\x7b') (u : List (String × JsValue)) (m : List String) :
    substAux vars l u m = (l, u, m) := by
  have h0 : substAux vars [] u m = ([], u, m) := by rw [substAux]
  have h2 := substAux_append vars l [] h u m
  rw [List.append_nil, h0] at h2
  simpa using h2

theorem splitChar_no_sep (sep : Char) (l : List Char) (h : ∀ c ∈ l, c ≠ sep) :
    splitChar sep l = [l] := by
  induction l with
  | nil => rfl
  | cons a t ih =>
    have ha : a ≠ sep := h a (by simp)
    simp only [splitChar, ha, if_false]
    rw [ih (fun c hc => h c (by simp [hc]))]

theorem splitChar_append (sep : Char) (l1 l2 : List Char)
    (h : ∀ c ∈ l1, c ≠ sep) :
    splitChar sep (l1 ++ sep :: l2) = l1 :: splitChar sep l2 := by
  induction l1 with
  | nil => simp [splitChar]
  | cons a t ih =>
    have ha : a ≠ sep := h a (by simp)
    simp only [List.cons_append, splitChar, ha, if_false, List.append_eq]
    rw [ih (fun c hc => h c (by simp [hc]))]

theorem dedupFirst_nil : dedupFirst [] = [] := by rw [dedupFirst]

theorem dedupFirst_singleton (x : String) : dedupFirst [x] = [x] := by
  rw [dedupFirst]
  simp [dedupFirst_nil]

/-- Full evaluation of `substituteVariables` on a body consisting of one
well-formed placeholder surrounded by brace-free text. -/
theorem substituteVariables_eval (vars : List (String × JsValue))
    (pre post : String) (expr : List Char)
    (hpre : ∀ c ∈ pre.data, c ≠ '\x7b') (hpost : ∀ c ∈ post.data, c ≠ '\x7b')
    (he : expr ≠ []) (hne : ∀ c ∈ expr, c ≠ '\x7d') :
    substituteVariables ⟨pre.data ++ '\x7b' :: '\x7b' ::
        (expr ++ '\x7d' :: '\x7d' :: post.data)⟩ vars =
      (match alookup vars ⟨(((splitChar ':' expr).map trimL).headD [])⟩ with
       | some v =>
         ⟨⟨pre.data ++ ((jsToString v).data ++ post.data)⟩,
          updateAssoc [] ⟨(((splitChar ':' expr).map trimL).headD [])⟩ v, []⟩
       | none =>
         match ((splitChar ':' expr).map trimL).get? 1 with
         | some d =>
           ⟨⟨pre.data ++ (d ++ post.data)⟩,
            updateAssoc [] ⟨(((splitChar ':' expr).map trimL).headD [])⟩
              (.vstr ⟨d⟩), []⟩
         | none =>
           ⟨⟨pre.data ++ '\x7b' :: '\x7b' ::
               (expr ++ '\x7d' :: '\x7d' :: post.data)⟩, [],
            [⟨(((splitChar ':' expr).map trimL).headD [])⟩]⟩) := by
  unfold substituteVariables
  show (let r := substAux vars (pre.data ++ '\x7b' :: '\x7b' ::
        (expr ++ '\x7d' :: '\x7d' :: post.data)) [] [];
      (⟨⟨r.1⟩, r.2.1, dedupFirst r.2.2⟩ : SubstResult)) = _
  rw [substAux_append vars pre.data _ hpre]
  rw [substAux_match vars expr post.data he hne]
  cases halk : alookup vars ⟨(((splitChar ':' expr).map trimL).headD [])⟩ with
  | some v =>
    simp [substAux_pass vars post.data hpost, dedupFirst_nil]
  | none =>
    cases hseg : ((splitChar ':' expr).map trimL).get? 1 with
    | some d =>
      simp [substAux_pass vars post.data hpost, dedupFirst_nil]
    | none =>
      simp [substAux_pass vars post.data hpost, dedupFirst_singleton]

theorem strEq (s t : String) (h : s.data = t.data) : s = t := by
  cases s; cases t; exact congrArg String.mk h

theorem updateAssoc_nil (k : String) (v : JsValue) :
    updateAssoc [] k v = [(k, v)] := by simp [updateAssoc]

/-- C2.  For every body string and bindings mapping, substitution resolves
each `{{name}}` / `{{name:default}}` placeholder as follows: a name that is
a key of the bindings (whatever its value, including falsy values such as
`""`, `0` or `false`) is replaced by the string form of that value and
recorded as used with that value; otherwise a present default literal
replaces the placeholder and the name is recorded as used with the literal
as its value; otherwise the placeholder text is left completely unmodified
and the name is recorded in the missing list.  `pre`/`post` are arbitrary
brace-free surroundings of the placeholder; `name` and `dflt` are
well-formed segments (non-empty name, no `}` or `:`, already trimmed). -/
theorem substituteVariables_resolution
    (vars : List (String × JsValue)) (pre post name dflt : String) (v : JsValue)
    (hpre : ∀ c ∈ pre.data, c ≠ '\x7b')
    (hpost : ∀ c ∈ post.data, c ≠ '\x7b')
    (hn0 : name.data ≠ [])
    (hn1 : ∀ c ∈ name.data, c ≠ '\x7d' ∧ c ≠ ':')
    (hn2 : trimL name.data = name.data)
    (hd1 : ∀ c ∈ dflt.data, c ≠ '\x7d' ∧ c ≠ ':')
    (hd2 : trimL dflt.data = dflt.data) :
    (alookup vars name = some v →
      substituteVariables (pre ++ "\x7b\x7b" ++ name ++ "\x7d\x7d" ++ post) vars
          = ⟨pre ++ jsToString v ++ post, [(name, v)], []⟩
      ∧ substituteVariables
            (pre ++ "\x7b\x7b" ++ name ++ ":" ++ dflt ++ "\x7d\x7d" ++ post) vars
          = ⟨pre ++ jsToString v ++ post, [(name, v)], []⟩)
    ∧ (alookup vars name = none →
      substituteVariables
          (pre ++ "\x7b\x7b" ++ name ++ ":" ++ dflt ++ "\x7d\x7d" ++ post) vars
        = ⟨pre ++ dflt ++ post, [(name, .vstr dflt)], []⟩)
    ∧ (alookup vars name = none →
      substituteVariables (pre ++ "\x7b\x7b" ++ name ++ "\x7d\x7d" ++ post) vars
        = ⟨pre ++ "\x7b\x7b" ++ name ++ "\x7d\x7d" ++ post, [], [name]⟩) := by
  -- the two body shapes, written as raw character lists
  have hbody1 : (pre ++ "\x7b\x7b" ++ name ++ "\x7d\x7d" ++ post : String)
      = ⟨pre.data ++ '\x7b' :: '\x7b' ::
          (name.data ++ '\x7d' :: '\x7d' :: post.data)⟩ := by
    apply strEq
    simp [String.data_append]
  have hbody2 : (pre ++ "\x7b\x7b" ++ name ++ ":" ++ dflt ++ "\x7d\x7d" ++ post : String)
      = ⟨pre.data ++ '\x7b' :: '\x7b' ::
          ((name.data ++ ':' :: dflt.data) ++ '\x7d' :: '\x7d' :: post.data)⟩ := by
    apply strEq
    simp [String.data_append]
  -- the split of the two placeholder expressions
  have hsplit1 : (splitChar ':' name.data).map trimL = [name.data] := by
    rw [splitChar_no_sep ':' name.data (fun c hc => (hn1 c hc).2)]
    simp [hn2]
  have hsplit2 : (splitChar ':' (name.data ++ ':' :: dflt.data)).map trimL
      = [name.data, dflt.data] := by
    rw [splitChar_append ':' name.data dflt.data (fun c hc => (hn1 c hc).2)]
    rw [splitChar_no_sep ':' dflt.data (fun c hc => (hd1 c hc).2)]
    simp [hn2, hd2]
  have hne1 : ∀ c ∈ name.data, c ≠ '\x7d' := fun c hc => (hn1 c hc).1
  have hne2 : ∀ c ∈ name.data ++ ':' :: dflt.data, c ≠ '\x7d' := by
    intro c hc
    rcases List.mem_append.1 hc with h1 | h1
    · exact (hn1 c h1).1
    · rcases List.mem_cons.1 h1 with h2 | h2
      · subst h2; decide
      · exact (hd1 c h2).1
  have he2 : name.data ++ ':' :: dflt.data ≠ [] := by simp
  have e1 := substituteVariables_eval vars pre post name.data hpre hpost hn0 hne1
  have e2 := substituteVariables_eval vars pre post
      (name.data ++ ':' :: dflt.data) hpre hpost he2 hne2
  rw [hsplit1] at e1
  rw [hsplit2] at e2
  simp only [List.headD, List.get?] at e1 e2
  rw [show ((⟨name.data⟩ : String)) = name from rfl] at e1 e2
  rw [show ((⟨dflt.data⟩ : String)) = dflt from rfl] at e2
  have hcV : ∀ w : JsValue,
      (⟨pre.data ++ ((jsToString w).data ++ post.data)⟩ : String)
        = pre ++ jsToString w ++ post := fun w =>
    strEq _ _ (by simp [String.data_append])
  have hcD : (⟨pre.data ++ (dflt.data ++ post.data)⟩ : String)
      = pre ++ dflt ++ post :=
    strEq _ _ (by simp [String.data_append])
  refine ⟨fun halk => ⟨?_, ?_⟩, fun halk => ?_, fun halk => ?_⟩
  · rw [hbody1, e1, halk]
    simp [hcV, updateAssoc_nil]
  · rw [hbody2, e2, halk]
    simp [hcV, updateAssoc_nil]
  · rw [hbody2, e2, halk]
    simp [hcD, updateAssoc_nil]
  · rw [hbody1, e1, halk]

/-- Witness for C2: end-to-end scenario 3 of the specification
(`"{{greeting:Hello}} world"` with empty bindings yields `"Hello world"`,
used `greeting ↦ "Hello"`, nothing missing), plus a falsy-but-defined
binding (`x ↦ ""`) that is still substituted rather than treated as
missing. -/
theorem substituteVariables_resolution_w :
    alookup [] "greeting" = none ∧
    substituteVariables "\x7b\x7bgreeting:Hello\x7d\x7d world" []
      = ⟨"Hello world", [("greeting", JsValue.vstr "Hello")], []⟩ ∧
    alookup [("x", JsValue.vstr "")] "x" = some (JsValue.vstr "") ∧
    substituteVariables "\x7b\x7bx\x7d\x7d" [("x", JsValue.vstr "")]
      = ⟨"", [("x", JsValue.vstr "")], []⟩ := by
  refine ⟨rfl, ?_, rfl, ?_⟩
  · exact (substituteVariables_resolution [] "" " world" "greeting" "Hello"
      JsValue.vnull (by decide) (by decide) (by decide) (by decide)
      (by decide) (by decide) (by decide)).2.1 rfl
  · exact ((substituteVariables_resolution [("x", JsValue.vstr "")] "" "" "x" "x"
      (JsValue.vstr "") (by decide) (by decide) (by decide) (by decide)
      (by decide) (by decide) (by decide)).1 rfl).1

/-- C10.  A placeholder whose inner expression has two or more colons
uses only the trimmed segment between the first and second colons as the
default literal; every later segment is silently discarded from the
output and from the recorded used value. -/
theorem substituteVariables_multicolon
    (vars : List (String × JsValue)) (name d1 rest : String)
    (hn0 : name.data ≠ [])
    (hn1 : ∀ c ∈ name.data, c ≠ '\x7d' ∧ c ≠ ':')
    (hn2 : trimL name.data = name.data)
    (hd1 : ∀ c ∈ d1.data, c ≠ '\x7d' ∧ c ≠ ':')
    (hrest : ∀ c ∈ rest.data, c ≠ '\x7d')
    (halk : alookup vars name = none) :
    substituteVariables
        ("\x7b\x7b" ++ name ++ ":" ++ d1 ++ ":" ++ rest ++ "\x7d\x7d") vars
      = ⟨⟨trimL d1.data⟩, [(name, .vstr ⟨trimL d1.data⟩)], []⟩ := by
  have hbody : ("\x7b\x7b" ++ name ++ ":" ++ d1 ++ ":" ++ rest ++ "\x7d\x7d" : String)
      = ⟨"".data ++ '\x7b' :: '\x7b' ::
          ((name.data ++ ':' :: (d1.data ++ ':' :: rest.data)) ++
            '\x7d' :: '\x7d' :: "".data)⟩ := by
    apply strEq
    simp [String.data_append]
  have hne : ∀ c ∈ name.data ++ ':' :: (d1.data ++ ':' :: rest.data), c ≠ '\x7d' := by
    intro c hc
    rcases List.mem_append.1 hc with h1 | h1
    · exact (hn1 c h1).1
    · rcases List.mem_cons.1 h1 with h2 | h2
      · subst h2; decide
      · rcases List.mem_append.1 h2 with h3 | h3
        · exact (hd1 c h3).1
        · rcases List.mem_cons.1 h3 with h4 | h4
          · subst h4; decide
          · exact hrest c h4
  have e := substituteVariables_eval vars "" ""
      (name.data ++ ':' :: (d1.data ++ ':' :: rest.data))
      (by decide) (by decide) (by simp) hne
  have hsplit : (splitChar ':'
      (name.data ++ ':' :: (d1.data ++ ':' :: rest.data))).map trimL
      = name.data :: trimL d1.data :: (splitChar ':' rest.data).map trimL := by
    rw [splitChar_append ':' name.data _ (fun c hc => (hn1 c hc).2)]
    rw [splitChar_append ':' d1.data _ (fun c hc => (hd1 c hc).2)]
    simp [hn2]
  rw [hsplit] at e
  simp only [List.headD, List.get?] at e
  rw [show ((⟨name.data⟩ : String)) = name from rfl] at e
  rw [hbody, e, halk]
  simp [updateAssoc_nil]

/-- Witness for C10: `{{name:a:b}}` with empty bindings substitutes `"a"`
and records `name ↦ "a"`; the segment `b` is discarded. -/
theorem substituteVariables_multicolon_w :
    alookup [] "name" = none ∧
    substituteVariables "\x7b\x7bname:a:b\x7d\x7d" []
      = ⟨"a", [("name", JsValue.vstr "a")], []⟩ := by
  refine ⟨rfl, ?_⟩
  exact substituteVariables_multicolon [] "name" "a" "b"
    (by decide) (by decide) (by decide) (by decide) (by decide) rfl

/-- Index of the first occurrence of `a` in `l` (equals `l.length` when
absent); used to state the first-seen ordering of the missing list. -/
def firstIdx : List String → String → Nat
  | [], _ => 0
  | x :: xs, a => if x = a then 0 else firstIdx xs a + 1

theorem dedupFirst_mem : ∀ (l : List String) (a : String),
    a ∈ dedupFirst l ↔ a ∈ l := by
  intro l
  induction l using dedupFirst.induct with
  | case1 => intro a; simp [dedupFirst_nil]
  | case2 x xs ih =>
    intro a
    rw [dedupFirst]
    by_cases hax : a = x
    · simp [hax]
    · simp only [List.mem_cons, hax, false_or]
      rw [ih a]
      simp [List.mem_filter, hax]

theorem dedupFirst_nodup : ∀ l : List String, (dedupFirst l).Nodup := by
  intro l
  induction l using dedupFirst.induct with
  | case1 => simp [dedupFirst_nil]
  | case2 x xs ih =>
    rw [dedupFirst]
    refine List.nodup_cons.2 ⟨?_, ih⟩
    intro hx
    have := (dedupFirst_mem _ x).1 hx
    simp [List.mem_filter] at this

theorem firstIdx_lt_of_filter (p : String → Bool) :
    ∀ (l : List String) (a b : String), a ∈ l.filter p → b ∈ l.filter p →
      firstIdx (l.filter p) a < firstIdx (l.filter p) b →
      firstIdx l a < firstIdx l b := by
  intro l
  induction l with
  | nil => intro a b ha; simp at ha
  | cons c t ih =>
    intro a b ha hb hlt
    by_cases hpc : p c
    · rw [List.filter_cons_of_pos hpc] at ha hb hlt
      by_cases hca : c = a
      · subst hca
        by_cases hcb : c = b
        · subst hcb
          simp [firstIdx] at hlt
        · simp [firstIdx, hcb]
      · by_cases hcb : c = b
        · subst hcb
          simp [firstIdx, hca] at hlt
        · simp only [firstIdx, if_neg hca, if_neg hcb] at hlt ⊢
          have ha2 : a ∈ t.filter p := by
            rcases List.mem_cons.1 ha with h1 | h1
            · exact absurd h1.symm hca
            · exact h1
          have hb2 : b ∈ t.filter p := by
            rcases List.mem_cons.1 hb with h1 | h1
            · exact absurd h1.symm hcb
            · exact h1
          have := ih a b ha2 hb2 (by omega)
          omega
    · rw [List.filter_cons_of_neg hpc] at ha hb hlt
      have hca : c ≠ a := fun h => hpc (h ▸ (List.mem_filter.1 ha).2)
      have hcb : c ≠ b := fun h => hpc (h ▸ (List.mem_filter.1 hb).2)
      simp only [firstIdx, if_neg hca, if_neg hcb]
      have := ih a b ha hb hlt
      omega

theorem pairwise_imp_mem {R S : String → String → Prop} :
    ∀ {l : List String}, (∀ a ∈ l, ∀ b ∈ l, R a b → S a b) →
      l.Pairwise R → l.Pairwise S := by
  intro l
  induction l with
  | nil => intro _ _; exact List.Pairwise.nil
  | cons x t ih =>
    intro H hp
    rcases List.pairwise_cons.1 hp with ⟨h1, h2⟩
    refine List.pairwise_cons.2
      ⟨fun b hb => H x (by simp) b (by simp [hb]) (h1 b hb),
       ih (fun a ha b hb hr => H a (by simp [ha]) b (by simp [hb]) hr) h2⟩

theorem dedupFirst_pairwise : ∀ l : List String,
    (dedupFirst l).Pairwise (fun a b => firstIdx l a < firstIdx l b) := by
  intro l
  induction l using dedupFirst.induct with
  | case1 => simp [dedupFirst_nil]
  | case2 x xs ih =>
    rw [dedupFirst]
    refine List.pairwise_cons.2 ⟨?_, ?_⟩
    · intro b hb
      have hbf := (dedupFirst_mem _ b).1 hb
      have hbx : b ≠ x := by simpa using (List.mem_filter.1 hbf).2
      have hxb : x ≠ b := fun h => hbx h.symm
      simp [firstIdx, hxb]
    · refine pairwise_imp_mem ?_ ih
      intro a ha b hb hr
      have haf := (dedupFirst_mem _ a).1 ha
      have hbf := (dedupFirst_mem _ b).1 hb
      have hax : a ≠ x := by simpa using (List.mem_filter.1 haf).2
      have hbx : b ≠ x := by simpa using (List.mem_filter.1 hbf).2
      have hxa : x ≠ a := fun h => hax h.symm
      have hxb : x ≠ b := fun h => hbx h.symm
      have := firstIdx_lt_of_filter (fun y => y ≠ x) xs a b haf hbf hr
      simp [firstIdx, hxa, hxb]
      omega

/-- C9.  The missing-variable list returned by substitution never contains
duplicates, contains exactly the names pushed by unresolved placeholders,
and lists them in first-seen order of their placeholders (the first
occurrence indices in the raw push sequence are strictly increasing along
the returned list). -/
theorem missingVariables_nodup_first_seen (content : String)
    (vars : List (String × JsValue)) :
    (substituteVariables content vars).missingVariables.Nodup
    ∧ (∀ a, a ∈ (substituteVariables content vars).missingVariables ↔
        a ∈ substMissingRaw content vars)
    ∧ (substituteVariables content vars).missingVariables.Pairwise
        (fun a b => firstIdx (substMissingRaw content vars) a <
          firstIdx (substMissingRaw content vars) b) := by
  have hm : (substituteVariables content vars).missingVariables
      = dedupFirst (substMissingRaw content vars) := rfl
  rw [hm]
  exact ⟨dedupFirst_nodup _, fun a => dedupFirst_mem _ a, dedupFirst_pairwise _⟩

/-! ## Variable specifications and default merging -/

/-- The normalized description of one expected template variable
(`VariableSpec` in `types.ts`).  `type`, `default`, `options` and
`description` carry the raw frontmatter values copied through by
`parseVariableSpec` (`options` is kept when it is a YAML list, the only
shape the validator's `includes` call supports). -/
structure VariableSpec where
  name : String
  type : JsValue
  required : Bool
  default : Option JsValue := none
  options : Option (List JsValue) := none
  description : Option JsValue := none

/-- `PromptManager.mergeVariablesWithDefaults`: starting from a copy of the
caller's bindings, walk the spec list and inject `spec.default` for every
spec whose default is defined (`!== undefined`) and whose name is not
already a key of the accumulated object (`!(spec.name in merged)`). -/
def mergeVariablesWithDefaults :
    List (String × JsValue) → List VariableSpec → List (String × JsValue)
  | merged, [] => merged
  | merged, spec :: rest =>
    mergeVariablesWithDefaults
      (match spec.default with
       | some d =>
         if merged.any (fun p => p.1 = spec.name) then merged
         else merged ++ [(spec.name, d)]
       | none => merged) rest

/-- The default declared by the first spec named `n` that carries one. -/
def firstDefault (specs : List VariableSpec) (n : String) : Option JsValue :=
  (specs.find? (fun s => s.name = n && s.default.isSome)).bind (fun s => s.default)

theorem alookup_append (l1 l2 : List (String × JsValue)) (k : String) :
    alookup (l1 ++ l2) k = (alookup l1 k).or (alookup l2 k) := by
  unfold alookup
  rw [List.find?_append]
  cases l1.find? (fun p => p.1 = k) <;> simp

theorem any_key_iff_alookup (l : List (String × JsValue)) (k : String) :
    l.any (fun p => p.1 = k) = (alookup l k).isSome := by
  induction l with
  | nil => rfl
  | cons p t ih =>
    by_cases hp : p.1 = k
    · simp [alookup, List.find?_cons, hp]
    · simp only [alookup, List.find?_cons] at ih ⊢
      simp [hp, ih]

/-- C8.  The default-merge step maps every name the caller supplied to
exactly the caller's value (a spec default never overrides it), maps each
name the caller did not supply but whose spec declares a default to that
(first such) default, and contains no other names: the lookup of any name
in the merged bindings is the caller's value when present, and otherwise
the first declared default for that name (or absent). -/
theorem mergeVariablesWithDefaults_semantics :
    ∀ (specs : List VariableSpec) (vars : List (String × JsValue)) (n : String),
    (∀ v, alookup vars n = some v →
      alookup (mergeVariablesWithDefaults vars specs) n = some v)
    ∧ (alookup vars n = none →
      alookup (mergeVariablesWithDefaults vars specs) n = firstDefault specs n) := by
  intro specs
  induction specs with
  | nil =>
    intro vars n
    exact ⟨fun v h => h, fun h => by simp [mergeVariablesWithDefaults, firstDefault, h]⟩
  | cons s ss ih =>
    intro vars n
    cases hd : s.default with
    | none =>
      constructor
      · intro v h
        have := (ih vars n).1 v h
        simpa [mergeVariablesWithDefaults, hd] using this
      · intro h
        have := (ih vars n).2 h
        simp only [mergeVariablesWithDefaults, hd]
        rw [this]
        simp [firstDefault, List.find?_cons, hd]
    | some d =>
      by_cases hmem : vars.any (fun p => p.1 = s.name)
      · -- name already present: no injection
        have hstep : mergeVariablesWithDefaults vars (s :: ss)
            = mergeVariablesWithDefaults vars ss := by
          simp [mergeVariablesWithDefaults, hd, hmem]
        rw [hstep]
        constructor
        · exact fun v h => (ih vars n).1 v h
        · intro h
          rw [(ih vars n).2 h]
          -- since `n` is absent from vars but `s.name` is present, `n ≠ s.name`
          have hne : s.name ≠ n := by
            intro he
            rw [any_key_iff_alookup, he, h] at hmem
            simp at hmem
          simp [firstDefault, List.find?_cons, hne]
      · -- inject the default at the end
        have hstep : mergeVariablesWithDefaults vars (s :: ss)
            = mergeVariablesWithDefaults (vars ++ [(s.name, d)]) ss := by
          simp [mergeVariablesWithDefaults, hd, hmem]
        rw [hstep]
        constructor
        · intro v h
          have h2 : alookup (vars ++ [(s.name, d)]) n = some v := by
            rw [alookup_append, h]; rfl
          exact (ih (vars ++ [(s.name, d)]) n).1 v h2
        · intro h
          by_cases hne : s.name = n
          · -- the injected default is found first
            subst hne
            have h2 : alookup (vars ++ [(s.name, d)]) s.name = some d := by
              rw [alookup_append, h]
              simp [alookup, List.find?_cons]
            rw [(ih (vars ++ [(s.name, d)]) s.name).1 d h2]
            simp [firstDefault, List.find?_cons, hd]
          · have h2 : alookup (vars ++ [(s.name, d)]) n = none := by
              rw [alookup_append, h]
              simp [alookup, List.find?_cons, hne]
            rw [(ih (vars ++ [(s.name, d)]) n).2 h2]
            simp [firstDefault, List.find?_cons, hne]

/-- Witness for C8: a caller value survives merging (the spec default for
`a` does not override it), a missing name receives its declared default,
and a name with no binding and no default stays absent. -/
theorem mergeVariablesWithDefaults_semantics_w :
    alookup (mergeVariablesWithDefaults [("a", JsValue.vstr "mine")]
      [⟨"a", JsValue.vstr "string", true, some (JsValue.vstr "dflt"), none, none⟩,
       ⟨"b", JsValue.vstr "string", false, some (JsValue.vnum 7), none, none⟩]) "a"
      = some (JsValue.vstr "mine")
    ∧ alookup (mergeVariablesWithDefaults [("a", JsValue.vstr "mine")]
      [⟨"a", JsValue.vstr "string", true, some (JsValue.vstr "dflt"), none, none⟩,
       ⟨"b", JsValue.vstr "string", false, some (JsValue.vnum 7), none, none⟩]) "b"
      = some (JsValue.vnum 7)
    ∧ alookup (mergeVariablesWithDefaults [("a", JsValue.vstr "mine")]
      [⟨"a", JsValue.vstr "string", true, some (JsValue.vstr "dflt"), none, none⟩,
       ⟨"b", JsValue.vstr "string", false, some (JsValue.vnum 7), none, none⟩]) "c"
      = none := by
  refine ⟨?_, ?_, ?_⟩
  · exact (mergeVariablesWithDefaults_semantics _ _ "a").1 (JsValue.vstr "mine") rfl
  · have h := (mergeVariablesWithDefaults_semantics
      [⟨"a", JsValue.vstr "string", true, some (JsValue.vstr "dflt"), none, none⟩,
       ⟨"b", JsValue.vstr "string", false, some (JsValue.vnum 7), none, none⟩]
      [("a", JsValue.vstr "mine")] "b").2 rfl
    rw [h]; rfl
  · have h := (mergeVariablesWithDefaults_semantics
      [⟨"a", JsValue.vstr "string", true, some (JsValue.vstr "dflt"), none, none⟩,
       ⟨"b", JsValue.vstr "string", false, some (JsValue.vnum 7), none, none⟩]
      [("a", JsValue.vstr "mine")] "c").2 rfl
    rw [h]; rfl

/-! ## Variable validation (`ObsidianUtils.validateVariables` /
`validateVariableType`, `config.ts`)

`new Date(value)` validity is delegated to JavaScript's date parser, which
both the source and the specification treat as an oracle; the embedding
takes it as the parameter `dateOk`. -/

/-- JS `value === undefined || value === null || value === ''` on a
possibly-absent binding. -/
def isAbsentish : Option JsValue → Bool
  | none => true
  | some .vnull => true
  | some (.vstr s) => s = ""
  | some _ => false

/-- `switch (spec.type)` compares the raw `type` field against a string
literal with `===`. -/
def typeIs (t : JsValue) (s : String) : Bool :=
  match t with
  | .vstr x => x = s
  | _ => false

/-- JS `Array.prototype.join(sep)` over already-stringified elements. -/
def joinSep (sep : String) : List String → String
  | [] => ""
  | x :: rest => rest.foldl (fun acc y => acc ++ sep ++ y) x

/-- `ObsidianUtils.validateVariableType`: the `switch` on `spec.type`
returns the first type error; only when the type check passes is the
`options` membership check applied (`spec.options && !spec.options.includes(value)`;
an `options` list is always truthy, including `[]`).  `isNaN` cannot reject
a modelled number since JSON numbers are finite. -/
def validateVariableType (dateOk : JsValue → Bool) (spec : VariableSpec)
    (value : JsValue) : Option String :=
  let typeErr : Option String :=
    if typeIs spec.type "string" then
      if jsTypeof value = "string" then none
      else some ("expected string, got " ++ jsTypeof value)
    else if typeIs spec.type "number" then
      if jsTypeof value = "number" then none
      else some ("expected number, got " ++ jsTypeof value)
    else if typeIs spec.type "boolean" then
      if jsTypeof value = "boolean" then none
      else some ("expected boolean, got " ++ jsTypeof value)
    else if typeIs spec.type "date" then
      if dateOk value then none
      else some ("expected valid date, got invalid date: " ++ jsToString value)
    else none
  match typeErr with
  | some e => some e
  | none =>
    match spec.options with
    | some opts =>
      if opts.any (fun o => jsBeq o value) then none
      else some ("expected one of [" ++ joinSep ", " (opts.map jsToString) ++
        "], got " ++ jsToString value)
    | none => none

/-- One iteration of the `for (const spec of specs)` loop of
`ObsidianUtils.validateVariables`, acting on the accumulated
`(missing, errors)` pair. -/
def validateStep (dateOk : JsValue → Bool) (provided : List (String × JsValue))
    (acc : List VariableSpec × List String) (spec : VariableSpec) :
    List VariableSpec × List String :=
  let value := alookup provided spec.name
  if spec.required && isAbsentish value then (acc.1 ++ [spec], acc.2)
  else if value.isNone && !spec.required then acc
  else
    match value with
    | some v =>
      match validateVariableType dateOk spec v with
      | some e => (acc.1, acc.2 ++ ["Variable '" ++ spec.name ++ "': " ++ e])
      | none => acc
    | none => acc -- unreachable: an absent value is caught by the guards above

/-- The validation result record. -/
structure ValidationResult where
  isValid : Bool
  missing : List VariableSpec
  errors : List String

/-- `ObsidianUtils.validateVariables`. -/
def validateVariables (dateOk : JsValue → Bool) (specs : List VariableSpec)
    (provided : List (String × JsValue)) : ValidationResult :=
  let r := specs.foldl (validateStep dateOk provided) ([], [])
  ⟨r.1.isEmpty && r.2.isEmpty, r.1, r.2⟩

/-- The missing list as the specification describes it: exactly the
required specs whose bound value is absent, null, or the empty string. -/
def missingOfSpec (specs : List VariableSpec)
    (provided : List (String × JsValue)) : List VariableSpec :=
  specs.filter (fun s => s.required && isAbsentish (alookup provided s.name))

/-- The error list as the specification describes it: missing required
specs undergo no further checks, an absent non-required value produces no
error, and every remaining spec contributes exactly its type/options
error, if any. -/
def errorsOfSpec (dateOk : JsValue → Bool) (specs : List VariableSpec)
    (provided : List (String × JsValue)) : List String :=
  specs.filterMap (fun s =>
    let value := alookup provided s.name
    if s.required && isAbsentish value then none
    else
      match value with
      | none => none
      | some v => (validateVariableType dateOk s v).map
          (fun e => "Variable '" ++ s.name ++ "': " ++ e))

theorem validate_foldl (dateOk : JsValue → Bool)
    (provided : List (String × JsValue)) :
    ∀ (specs : List VariableSpec) (m0 : List VariableSpec) (e0 : List String),
      specs.foldl (validateStep dateOk provided) (m0, e0)
        = (m0 ++ missingOfSpec specs provided,
           e0 ++ errorsOfSpec dateOk specs provided) := by
  intro specs
  induction specs with
  | nil => intro m0 e0; simp [missingOfSpec, errorsOfSpec]
  | cons s ss ih =>
    intro m0 e0
    rw [List.foldl_cons]
    by_cases h1 : (s.required && isAbsentish (alookup provided s.name)) = true
    · have h1' := h1
      rw [Bool.and_eq_true] at h1'
      obtain ⟨h1a, h1b⟩ := h1'
      have hstep : validateStep dateOk provided (m0, e0) s = (m0 ++ [s], e0) := by
        simp [validateStep, h1]
      rw [hstep, ih]
      simp [missingOfSpec, errorsOfSpec, h1a, h1b]
    · have h1f : (s.required && isAbsentish (alookup provided s.name)) = false :=
        Bool.eq_false_iff.mpr h1
      by_cases h2 : ((alookup provided s.name).isNone && !s.required) = true
      · have h2' := h2
        rw [Bool.and_eq_true] at h2'
        obtain ⟨h2a, h2b⟩ := h2'
        have hnone : alookup provided s.name = none :=
          Option.isNone_iff_eq_none.1 h2a
        have hreq : s.required = false := by
          revert h2b; cases s.required <;> simp
        have hstep : validateStep dateOk provided (m0, e0) s = (m0, e0) := by
          simp [validateStep, h1, h2]
        rw [hstep, ih]
        simp [missingOfSpec, errorsOfSpec, hnone, hreq]
      · cases hv : alookup provided s.name with
        | none =>
          -- impossible: with an absent value either guard would have fired
          exfalso
          rw [hv] at h1f h2
          simp [isAbsentish] at h1f
          simp [h1f] at h2
        | some v =>
          have h1v : (s.required && isAbsentish (some v)) = false := by
            rw [hv] at h1f; exact h1f
          have h1p : ¬(s.required = true ∧ isAbsentish (some v) = true) := by
            rintro ⟨ha, hb⟩
            simp [ha, hb] at h1v
          cases he : validateVariableType dateOk s v with
          | some e =>
            have hstep : validateStep dateOk provided (m0, e0) s
                = (m0, e0 ++ ["Variable '" ++ s.name ++ "': " ++ e]) := by
              simp [validateStep, hv, h1v, he]
            rw [hstep, ih]
            simp [missingOfSpec, errorsOfSpec, List.filter_cons,
              List.filterMap_cons, hv, h1v, h1p, he]
          | none =>
            have hstep : validateStep dateOk provided (m0, e0) s = (m0, e0) := by
              simp [validateStep, hv, h1v, he]
            rw [hstep, ih]
            simp [missingOfSpec, errorsOfSpec, List.filter_cons,
              List.filterMap_cons, hv, h1v, h1p, he]

/-- C3.  The validator returns: as missing, exactly the required specs
whose bound value is absent, null, or the empty string (those specs
undergo no further checks); no error for a non-required spec whose value
is absent; one type/options error (type checked first, `options`
membership only after type validation, and never producing a missing
entry) for each remaining spec that fails; and overall validity holds iff
both the missing list and the error list are empty. -/
theorem validateVariables_semantics (dateOk : JsValue → Bool)
    (specs : List VariableSpec) (provided : List (String × JsValue)) :
    (validateVariables dateOk specs provided).missing
      = missingOfSpec specs provided
    ∧ (validateVariables dateOk specs provided).errors
      = errorsOfSpec dateOk specs provided
    ∧ ((validateVariables dateOk specs provided).isValid = true ↔
        ((validateVariables dateOk specs provided).missing = []
          ∧ (validateVariables dateOk specs provided).errors = [])) := by
  have h := validate_foldl dateOk provided specs [] []
  unfold validateVariables
  rw [h]
  refine ⟨by simp, by simp, ?_⟩
  simp [List.isEmpty_iff]

/-! ## Fuzzy scoring (`PromptManager.calculateFuzzyScore` /
`countCommonCharacters`)

JavaScript numbers on these code paths are exact: the constants are
decimal literals and each score is a product of one literal and one ratio
of small integers, so modelling the arithmetic over `ℚ` is faithful. -/

/-- `filename.replace(/\.(md|txt)$/, '')`: strip one trailing `.md` or
`.txt` extension. -/
def stripExt (s : String) : String :=
  if (".md".data).isSuffixOf s.data then ⟨s.data.take (s.data.length - 3)⟩
  else if (".txt".data).isSuffixOf s.data then ⟨s.data.take (s.data.length - 4)⟩
  else s

/-- The separator class `[\s-_]+` of the word-boundary split. -/
def isWordSep (c : Char) : Bool := isWs c || c = '-' || c = '_'

/-- `str.split(/[\s-_]+/)`. -/
def splitWords (s : String) : List String :=
  (splitRuns isWordSep s.data).map (fun l => (⟨l⟩ : String))

/-- The double loop over search words and filename words: count the search
words for which some filename word contains them or is contained in them
(the inner `break` makes each search word count at most once). -/
def countMatchedWords (searchWords filenameWords : List String) : Nat :=
  (searchWords.filter (fun w =>
    filenameWords.any (fun f => substrB w.data f.data || substrB f.data w.data))).length

/-- The merge loop of `countCommonCharacters` over two sorted character
lists: advance the smaller side, count coincidences. -/
def commonCount : List Char → List Char → Nat
  | [], _ => 0
  | _ :: _, [] => 0
  | a :: t1, b :: t2 =>
    if a = b then commonCount t1 t2 + 1
    else if a < b then commonCount t1 (b :: t2)
    else commonCount (a :: t1) t2
termination_by l1 l2 => l1.length + l2.length
decreasing_by all_goals (simp; try omega)

/-- `PromptManager.countCommonCharacters`: sort both strings' characters
(JS default sort = code-unit order) and merge-count common characters. -/
def countCommonCharacters (str1 str2 : String) : Nat :=
  commonCount (List.insertionSort (· ≤ ·) str1.data)
    (List.insertionSort (· ≤ ·) str2.data)

/-- `PromptManager.calculateFuzzyScore`: layered heuristic over the
extension-stripped candidate (callers pass both arguments lower-cased). -/
def calculateFuzzyScore (search filename : String) : ℚ :=
  let cleanFilename := stripExt filename
  if cleanFilename = search then 1.0
  else if substrB search.data cleanFilename.data then
    0.8 * ((search.data.length : ℚ) / (cleanFilename.data.length : ℚ))
  else
    let matchedWords := countMatchedWords (splitWords search) (splitWords cleanFilename)
    if 0 < matchedWords then
      0.6 * ((matchedWords : ℚ) / ((splitWords search).length : ℚ))
    else
      let charScore := (countCommonCharacters search cleanFilename : ℚ) /
        ((max search.data.length cleanFilename.data.length : ℚ))
      if 0.4 < charScore then charScore * 0.5 else 0

/-- The layered heuristic exactly as the specification words it; the
character-overlap ratio is the sorted-character multiset intersection size
divided by the longer string's length, scored `0.5 × ratio` only above
`0.4`. -/
def fuzzyScoreSpec (search filename : String) : ℚ :=
  let clean := stripExt filename
  if clean = search then 1.0
  else if substrB search.data clean.data then
    0.8 * ((search.data.length : ℚ) / (clean.data.length : ℚ))
  else if 0 < countMatchedWords (splitWords search) (splitWords clean) then
    0.6 * ((countMatchedWords (splitWords search) (splitWords clean) : ℚ) /
      ((splitWords search).length : ℚ))
  else
    let r := ((((search.data : Multiset Char) ∩ (clean.data : Multiset Char)).card : ℚ)) /
      ((max search.data.length clean.data.length : ℚ))
    if 0.4 < r then 0.5 * r else 0

theorem commonCount_eq_inter_card :
    ∀ (l1 l2 : List Char), l1.Sorted (· ≤ ·) → l2.Sorted (· ≤ ·) →
      commonCount l1 l2 = ((l1 : Multiset Char) ∩ (l2 : Multiset Char)).card := by
  intro l1 l2
  induction l1, l2 using commonCount.induct with
  | case1 l2 =>
    intro _ _
    rw [commonCount]
    simp
  | case2 a t1 =>
    intro _ _
    rw [commonCount]
    simp
  | case3 t1 b t2 ih =>
    intro hs1 hs2
    rw [commonCount]
    simp only [if_pos rfl]
    have h1 : ((b :: t1 : List Char) : Multiset Char) = b ::ₘ (t1 : Multiset Char) := rfl
    have h2 : ((b :: t2 : List Char) : Multiset Char) = b ::ₘ (t2 : Multiset Char) := rfl
    rw [h1, h2, Multiset.cons_inter_of_pos _ (Multiset.mem_cons_self b _),
      Multiset.erase_cons_head, Multiset.card_cons]
    rw [ih ((List.sorted_cons.1 hs1).2) ((List.sorted_cons.1 hs2).2)]
    simp
  | case4 a t1 b t2 hab hlt ih =>
    intro hs1 hs2
    rw [commonCount]
    rw [if_neg hab, if_pos hlt]
    have hnotmem : a ∉ (b :: t2 : List Char) := by
      intro hmem
      rcases List.mem_cons.1 hmem with h | h
      · exact hab h
      · exact absurd rfl (ne_of_lt (lt_of_lt_of_le hlt
          ((List.sorted_cons.1 hs2).1 a h))).symm
    have h1 : ((a :: t1 : List Char) : Multiset Char) = a ::ₘ (t1 : Multiset Char) := rfl
    rw [h1, Multiset.cons_inter_of_neg _ (by simpa using hnotmem)]
    exact ih ((List.sorted_cons.1 hs1).2) hs2
  | case5 a t1 b t2 hab hnlt ih =>
    intro hs1 hs2
    rw [commonCount]
    rw [if_neg hab, if_neg hnlt]
    have hba : b < a := lt_of_le_of_ne (le_of_not_lt hnlt) (fun h => hab h.symm)
    have hnotmem : b ∉ (a :: t1 : List Char) := by
      intro hmem
      rcases List.mem_cons.1 hmem with h | h
      · exact absurd h.symm (ne_of_lt hba).symm
      · exact absurd rfl (ne_of_lt (lt_of_lt_of_le hba
          ((List.sorted_cons.1 hs1).1 b h))).symm
    have h2 : ((b :: t2 : List Char) : Multiset Char) = b ::ₘ (t2 : Multiset Char) := rfl
    rw [Multiset.inter_comm, h2,
      Multiset.cons_inter_of_neg _ (by simpa using hnotmem),
      Multiset.inter_comm]
    exact ih hs1 ((List.sorted_cons.1 hs2).2)

theorem countCommonCharacters_eq (str1 str2 : String) :
    countCommonCharacters str1 str2
      = ((str1.data : Multiset Char) ∩ (str2.data : Multiset Char)).card := by
  unfold countCommonCharacters
  rw [commonCount_eq_inter_card _ _ (List.sorted_insertionSort _ _)
    (List.sorted_insertionSort _ _)]
  have e1 : ((List.insertionSort (· ≤ ·) str1.data : List Char) : Multiset Char)
      = (str1.data : Multiset Char) :=
    Multiset.coe_eq_coe.2 (List.perm_insertionSort _ _)
  have e2 : ((List.insertionSort (· ≤ ·) str2.data : List Char) : Multiset Char)
      = (str2.data : Multiset Char) :=
    Multiset.coe_eq_coe.2 (List.perm_insertionSort _ _)
  rw [e1, e2]

theorem isPrefixOf_self_append : ∀ (l r : List Char), l.isPrefixOf (l ++ r) = true := by
  intro l r
  induction l with
  | nil => simp [List.isPrefixOf]
  | cons a t ih => simp [List.isPrefixOf, ih]

theorem isSuffixOf_append (t suf : List Char) : suf.isSuffixOf (t ++ suf) = true := by
  unfold List.isSuffixOf
  rw [List.reverse_append]
  exact isPrefixOf_self_append _ _

theorem md_not_suffixOf_txt (t : List Char) :
    (".md".data).isSuffixOf (t ++ ".txt".data) = false := by
  unfold List.isSuffixOf
  rw [List.reverse_append]
  show List.isPrefixOf ('d' :: 'm' :: '.' :: [])
    (('t' :: 'x' :: 't' :: '.' :: []) ++ t.reverse) = false
  simp [List.isPrefixOf, show ('d' == 't') = false from rfl]

theorem stripExt_append_md (t : String) : stripExt ⟨t.data ++ ".md".data⟩ = t := by
  unfold stripExt
  rw [if_pos (isSuffixOf_append t.data ".md".data)]
  apply strEq
  show (t.data ++ ".md".data).take ((t.data ++ ".md".data).length - 3) = t.data
  have hl : (t.data ++ ".md".data).length - 3 = t.data.length := by simp
  rw [hl]
  exact List.take_left t.data _

theorem stripExt_append_txt (t : String) : stripExt ⟨t.data ++ ".txt".data⟩ = t := by
  unfold stripExt
  rw [if_neg, if_pos (isSuffixOf_append t.data ".txt".data)]
  · apply strEq
    show (t.data ++ ".txt".data).take ((t.data ++ ".txt".data).length - 4) = t.data
    have hl : (t.data ++ ".txt".data).length - 4 = t.data.length := by simp
    rw [hl]
    exact List.take_left t.data _
  · show ¬(".md".data.isSuffixOf (t.data ++ ".txt".data) = true)
    rw [md_not_suffixOf_txt t.data]
    simp

theorem toLowerStr_append_lit (s lit : String)
    (hlit : lit.data.map Char.toLower = lit.data) :
    toLowerStr (s ++ lit) = ⟨(toLowerStr s).data ++ lit.data⟩ := by
  apply strEq
  show (s ++ lit).data.map Char.toLower = (toLowerStr s).data ++ lit.data
  rw [String.data_append, List.map_append, hlit]
  rfl

/-- C5.  The fuzzy score is exactly the layered heuristic the
specification describes — the code's sorted-merge character count agrees
with the sorted-character multiset intersection size — and in particular
the score of any string against itself, case- and extension-insensitively
(the callers lower-case both sides, and the candidate's `.md`/`.txt`
extension is stripped), is exactly 1.0. -/
theorem calculateFuzzyScore_layers :
    (∀ search filename : String,
      calculateFuzzyScore search filename = fuzzyScoreSpec search filename)
    ∧ (∀ s : String,
        calculateFuzzyScore (toLowerStr s) (toLowerStr (s ++ ".md")) = 1)
    ∧ (∀ s : String,
        calculateFuzzyScore (toLowerStr s) (toLowerStr (s ++ ".txt")) = 1)
    ∧ (∀ s : String, stripExt s = s → calculateFuzzyScore s s = 1) := by
  refine ⟨?_, ?_, ?_, ?_⟩
  · intro search filename
    have hcc := countCommonCharacters_eq search (stripExt filename)
    simp only [calculateFuzzyScore, fuzzyScoreSpec, hcc]
    split_ifs <;> first | rfl | ring
  · intro s
    rw [toLowerStr_append_lit s ".md" (by decide)]
    have h : stripExt ⟨(toLowerStr s).data ++ ['.', 'm', 'd']⟩ = toLowerStr s :=
      stripExt_append_md (toLowerStr s)
    norm_num [calculateFuzzyScore, h]
  · intro s
    rw [toLowerStr_append_lit s ".txt" (by decide)]
    have h : stripExt ⟨(toLowerStr s).data ++ ['.', 't', 'x', 't']⟩ = toLowerStr s :=
      stripExt_append_txt (toLowerStr s)
    norm_num [calculateFuzzyScore, h]
  · intro s h
    norm_num [calculateFuzzyScore, h]

/-- Witness for C5: the self-score clause evaluated at `"plan"`. -/
theorem calculateFuzzyScore_layers_w :
    stripExt "plan" = "plan" ∧ calculateFuzzyScore "plan" "plan" = 1 :=
  ⟨by decide, calculateFuzzyScore_layers.2.2.2 "plan" (by decide)⟩

/-! ## Frontmatter parsing (`ObsidianUtils.parseObsidianFile`) -/

/-- Scan for the closing frontmatter fence: a `---` line, i.e. a newline
followed by three dashes followed by a newline (or the end of input).
Returns the YAML block before the fence and the body after it.

Modelled from the spec: the split itself is performed by the external
`gray-matter` library; the specification says the metadata block is
"delimited by a recognized marker convention at the top of the text". -/
def fmSplitAux : List Char → Option (List Char × List Char)
  | '\n' :: '-' :: '-' :: '-' :: '\n' :: body => some ([], body)
  | ['\n', '-', '-', '-'] => some ([], [])
  | c :: cs => (fmSplitAux cs).map (fun p => (c :: p.1, p.2))
  | [] => none

/-- Modelled from the spec: the `matter(content)` call of the external
`gray-matter` library.  A document whose text starts with the `---` marker
line has its fenced block handed to the YAML parser (the parameter
`yamlParse`); a missing marker, an unterminated fence, or a YAML block the
parser rejects all degrade to empty metadata, never to an error.  The
body is everything after the closing fence (the whole text when there is
no marker). -/
def matter (yamlParse : String → Option (List (String × JsValue)))
    (content : String) : List (String × JsValue) × String :=
  if ("---\n".data).isPrefixOf content.data then
    match fmSplitAux (content.data.drop 3) with
    | some (block, body) => ((yamlParse ⟨block⟩).getD [], ⟨body⟩)
    | none => ([], content)
  else ([], content)

/-- `ObsidianUtils.normalizeAliases`: a falsy field yields `[]`, a string
yields a one-element list, a list is filtered to its string elements, and
anything else yields `[]`. -/
def normalizeAliases (aliases : Option JsValue) : List String :=
  match aliases with
  | none => []
  | some v =>
    if !truthy v then []
    else
      match v with
      | .vstr s => [s]
      | .varr xs => xs.filterMap (fun y =>
          match y with
          | .vstr s => some s
          | _ => none)
      | _ => []

/-- `ObsidianUtils.normalizeTags`: a falsy field yields `[]`, a string is
split on commas/whitespace into non-empty trimmed tokens, a list is
filtered to its string elements, and anything else yields `[]`. -/
def normalizeTags (tags : Option JsValue) : List String :=
  match tags with
  | none => []
  | some v =>
    if !truthy v then []
    else
      match v with
      | .vstr s =>
        ((splitRuns (fun c => c = ',' || isWs c) s.data).map
          (fun l => (⟨l⟩ : String))).filter
            (fun tag => 0 < (trimL tag.data).length)
      | .varr xs => xs.filterMap (fun y =>
          match y with
          | .vstr s => some s
          | _ => none)
      | _ => []

/-- The parsed document record (`ObsidianFile` in `types.ts`). -/
structure ObsidianFile where
  frontmatter : List (String × JsValue)
  content : String
  aliases : List String
  tags : List String

/-- `ObsidianUtils.parseObsidianFile`: split metadata from body with
`matter`, trim the body (`body.trim()`), and normalize the `aliases` and
`tags` fields. -/
def parseObsidianFile (yamlParse : String → Option (List (String × JsValue)))
    (content : String) : ObsidianFile :=
  let m := matter yamlParse content
  { frontmatter := m.1
    content := trimStr m.2
    aliases := normalizeAliases (alookup m.1 "aliases")
    tags := normalizeTags (alookup m.1 "tags") }

theorem dropWhile_head_not (p : Char → Bool) (l : List Char) :
    ∀ c, (l.dropWhile p).head? = some c → p c = false := by
  induction l with
  | nil => intro c h; simp at h
  | cons a t ih =>
    intro c h
    by_cases hp : p a
    · rw [List.dropWhile_cons, if_pos hp] at h
      exact ih c h
    · rw [List.dropWhile_cons, if_neg hp] at h
      simp at h
      subst h
      exact Bool.eq_false_iff.mpr hp

/-- `trimL` removes exactly a whitespace prefix and a whitespace suffix,
and the remaining text neither starts nor ends with whitespace. -/
theorem trimL_spec (l : List Char) :
    (∃ pre suf, l = pre ++ trimL l ++ suf
      ∧ (∀ c ∈ pre, isWs c = true) ∧ (∀ c ∈ suf, isWs c = true))
    ∧ (∀ c, (trimL l).head? = some c → isWs c = false)
    ∧ (∀ c, (trimL l).getLast? = some c → isWs c = false) := by
  unfold trimL
  set d1 := l.dropWhile isWs with hd1
  set d2 := d1.reverse.dropWhile isWs with hd2
  refine ⟨⟨l.takeWhile isWs, (d1.reverse.takeWhile isWs).reverse, ?_, ?_, ?_⟩, ?_, ?_⟩
  · have h1 : l.takeWhile isWs ++ d1 = l := List.takeWhile_append_dropWhile isWs l
    have h2 : d1.reverse.takeWhile isWs ++ d2 = d1.reverse :=
      List.takeWhile_append_dropWhile isWs d1.reverse
    have h3 : d1 = d2.reverse ++ (d1.reverse.takeWhile isWs).reverse := by
      have := congrArg List.reverse h2
      simpa using this.symm
    conv_lhs => rw [← h1, h3]
    simp
  · intro c hc; exact List.mem_takeWhile_imp hc
  · intro c hc
    rw [List.mem_reverse] at hc
    exact List.mem_takeWhile_imp hc
  · -- head of the trimmed text
    intro c h
    rw [List.head?_reverse] at h
    have hsuf : d2 <:+ d1.reverse := List.dropWhile_suffix isWs
    rcases hsuf with ⟨pre2, hpre2⟩
    by_cases hnil : d2 = []
    · rw [hnil] at h; simp at h
    · have h4 : d2.getLast? = d1.reverse.getLast? := by
        rw [← hpre2]
        exact (List.getLast?_append_of_ne_nil _ hnil).symm
      rw [h4, List.getLast?_reverse] at h
      exact dropWhile_head_not isWs l c h
  · intro c h
    rw [List.getLast?_reverse] at h
    exact dropWhile_head_not isWs d1.reverse c h

/-- C4.  The frontmatter parser never fails: text without the top marker
yields empty metadata and the whole text (trimmed) as body; the body is
always the raw post-frontmatter text with leading and trailing whitespace
removed and interior whitespace intact; and a metadata block the YAML
parser rejects degrades to empty metadata instead of raising. -/
theorem parseObsidianFile_total
    (yamlParse : String → Option (List (String × JsValue))) (s : String) :
    (("---\n".data).isPrefixOf s.data = false →
      (parseObsidianFile yamlParse s).frontmatter = []
      ∧ (parseObsidianFile yamlParse s).content = trimStr s)
    ∧ ((parseObsidianFile yamlParse s).content = trimStr (matter yamlParse s).2
      ∧ (∃ pre suf, (matter yamlParse s).2.data
            = pre ++ (parseObsidianFile yamlParse s).content.data ++ suf
          ∧ (∀ c ∈ pre, isWs c = true) ∧ (∀ c ∈ suf, isWs c = true))
      ∧ (∀ c, (parseObsidianFile yamlParse s).content.data.head? = some c →
          isWs c = false)
      ∧ (∀ c, (parseObsidianFile yamlParse s).content.data.getLast? = some c →
          isWs c = false))
    ∧ (∀ block body, ("---\n".data).isPrefixOf s.data = true →
        fmSplitAux (s.data.drop 3) = some (block, body) →
        yamlParse ⟨block⟩ = none →
        (parseObsidianFile yamlParse s).frontmatter = []) := by
  refine ⟨?_, ?_, ?_⟩
  · intro h
    have hm : matter yamlParse s = ([], s) := by
      unfold matter
      rw [if_neg (by simp [h])]
    constructor
    · show (matter yamlParse s).1 = []
      rw [hm]
    · show trimStr (matter yamlParse s).2 = trimStr s
      rw [hm]
  · refine ⟨rfl, ?_, ?_, ?_⟩
    · exact (trimL_spec (matter yamlParse s).2.data).1
    · exact (trimL_spec (matter yamlParse s).2.data).2.1
    · exact (trimL_spec (matter yamlParse s).2.data).2.2
  · intro block body hpre hsplit hnone
    show (matter yamlParse s).1 = []
    unfold matter
    rw [if_pos hpre, hsplit]
    simp [hnone]

/-- Witness for C4: a marker-free document and a document whose fenced
block the YAML parser rejects both degrade to empty metadata with the
trimmed text as body. -/
theorem parseObsidianFile_total_w :
    (parseObsidianFile (fun _ => none) "  hello world \n").frontmatter = []
    ∧ (parseObsidianFile (fun _ => none) "  hello world \n").content
        = "hello world"
    ∧ (parseObsidianFile (fun _ => none) "---\nbad: [\n---\nBody").frontmatter
        = [] := by
  refine ⟨?_, ?_, ?_⟩
  · exact ((parseObsidianFile_total (fun _ => none) "  hello world \n").1
      (by decide)).1
  · have h := ((parseObsidianFile_total (fun _ => none) "  hello world \n").1
      (by decide)).2
    rw [h]
    decide
  · exact (parseObsidianFile_total (fun _ => none) "---\nbad: [\n---\nBody").2.2
      "\nbad: [".data "Body".data (by decide) (by decide) rfl

/-! ## Discovery engine (`PromptManager.discoverPrompt` and its stages)

The filesystem visible to one discovery call is modelled as the list of
search directories with their entries; path resolution and
allowed-directory containment (`resolveVaultPath` / `validateVaultPath`,
the excluded security layer) succeed within the model, and `getPathInfo`
is answered from the directory's entry list. -/

/-- One directory entry (`readdir` with `withFileTypes`). -/
structure Entry where
  name : String
  isFile : Bool
  content : String
deriving DecidableEq

/-- One search directory: its resolved path and its entries. -/
structure Dir where
  path : String
  entries : List Entry

/-- `path.join(dir, name)`. -/
def joinPath (dir name : String) : String := dir ++ "/" ++ name

/-- `isAllowedFileType` (`security.ts`): lower-case the path, take the
segment after the last dot (`split('.').pop()`), and accept `.md`, `.txt`
and `.json` (the callers never pass a custom extension list).  A path
with no dot yields the whole path as its "extension"; an empty final
segment is falsy and rejected. -/
def isAllowedFileType (filePath : String) : Bool :=
  match (splitChar '.' (toLowerStr filePath).data).getLast? with
  | some ext =>
    if ext = [] then false
    else
      let e : String := "." ++ ⟨ext⟩
      e = ".md" || e = ".txt" || e = ".json"
  | none => false

/-- The filename variation list of `findExactMatch`, in source order:
exact name, `.md`, `.txt`, lower-case, lower-case `.md`. -/
def nameVariations (name : String) : List String :=
  [name, name ++ ".md", name ++ ".txt", toLowerStr name, toLowerStr name ++ ".md"]

/-- One iteration of the variation loop: `validateVaultPath` +
`getPathInfo` + `isAllowedFileType` — the variant path is returned when it
exists as an allowed file in the directory. -/
def variantCheck (d : Dir) (variation : String) : Option String :=
  if (d.entries.any (fun e => e.name = variation && e.isFile))
      && isAllowedFileType (joinPath d.path variation) then
    some (joinPath d.path variation)
  else none

/-- `PromptManager.findExactMatch`: first existing variation wins. -/
def findExactMatch (d : Dir) (name : String) : Option String :=
  (nameVariations name).findSome? (variantCheck d)

/-- `PromptManager.findByAlias`: scan the directory's allowed files, parse
each one's frontmatter, and return the first file one of whose string
aliases equals the target case-insensitively
(`parsed.frontmatter.aliases || []`, wrapped when not an array). -/
def findByAlias (yamlParse : String → Option (List (String × JsValue)))
    (d : Dir) (name : String) : Option String :=
  let files := d.entries.filter (fun e => e.isFile && isAllowedFileType e.name)
  files.findSome? (fun e =>
    let parsed := parseObsidianFile yamlParse e.content
    let aliases := match alookup parsed.frontmatter "aliases" with
      | some v => if truthy v then v else JsValue.varr []
      | none => JsValue.varr []
    let aliasArray := match aliases with
      | JsValue.varr xs => xs
      | other => [other]
    if aliasArray.any (fun a =>
        match a with
        | JsValue.vstr s => toLowerStr s = toLowerStr name
        | _ => false) then
      some (joinPath d.path e.name)
    else none)

/-- First element attaining the maximal score — the value of
`array.sort((a, b) => b.score - a.score)[0]` for the (stable) JS sort. -/
def pickBest : List (Entry × ℚ) → Option (Entry × ℚ) :=
  List.foldl (fun best x =>
    match best with
    | none => some x
    | some b => if x.2 > b.2 then some x else some b) none

/-- `PromptManager.findFuzzyMatch`: score every allowed file against the
lower-cased name, keep scores above the hard-coded `0.3` threshold, pick
the best, and re-validate its existence before returning it. -/
def findFuzzyMatch (d : Dir) (name : String) : Option String :=
  let files := d.entries.filter (fun e => e.isFile && isAllowedFileType e.name)
  let scored := (files.map (fun e =>
    (e, calculateFuzzyScore (toLowerStr name) (toLowerStr e.name)))).filter
      (fun m => m.2 > 0.3)
  match pickBest scored with
  | some best =>
    if d.entries.any (fun e2 => e2.name = best.1.name && e2.isFile) then
      some (joinPath d.path best.1.name)
    else none
  | none => none

/-- Count the non-overlapping occurrences of `needle`, as
`(hay.match(new RegExp(needle, 'g')) || []).length` does for a needle
without regex metacharacters (the empty pattern matches at every
position). -/
def countOccur (needle : List Char) : List Char → Nat
  | [] => if needle.isEmpty then 1 else 0
  | c :: rest =>
    if hne : needle.isEmpty then 1 + countOccur needle rest
    else if needle.isPrefixOf (c :: rest) then
      1 + countOccur needle ((c :: rest).drop needle.length)
    else countOccur needle rest
termination_by l => l.length
decreasing_by
  · simp
  · have : needle.length ≠ 0 := by
      intro h
      exact hne (by simpa [List.isEmpty_iff, List.length_eq_zero] using h)
    simp
    omega

/-- `PromptManager.findByContent`: score each allowed file by a title
match (`0.8 × query/title length`) plus a capped body occurrence count
(`min(0.5, occurrences × 0.1)`), and return the best file when its score
exceeds `0.2`. -/
def findByContent (yamlParse : String → Option (List (String × JsValue)))
    (d : Dir) (name : String) : Option String :=
  let files := d.entries.filter (fun e => e.isFile && isAllowedFileType e.name)
  let searchLower := toLowerStr name
  let scored := files.filterMap (fun e =>
    let parsed := parseObsidianFile yamlParse e.content
    let titleScore : ℚ :=
      match alookup parsed.frontmatter "title" with
      | some (JsValue.vstr t) =>
        if t ≠ "" ∧ substrB searchLower.data (toLowerStr t).data then
          0.8 * ((searchLower.data.length : ℚ) / (t.data.length : ℚ))
        else 0
      | _ => 0
    let contentLower := toLowerStr parsed.content
    let contentScore : ℚ :=
      if substrB searchLower.data contentLower.data then
        min 0.5 ((countOccur searchLower.data contentLower.data : ℚ) * 0.1)
      else 0
    if titleScore + contentScore > 0 then some (e, titleScore + contentScore)
    else none)
  match pickBest scored with
  | some best => if best.2 > 0.2 then some (joinPath d.path best.1.name) else none
  | none => none

/-- `PromptManager.discoverPrompt` (the evolved four-stage version): per
directory in caller order, try exact, alias, fuzzy, then content; the
first stage to produce a match ends the search (`none` models the
`Prompt not found` throw after the loop). -/
def discoverPrompt (yamlParse : String → Option (List (String × JsValue))) :
    List Dir → String → Option String
  | [], _ => none
  | d :: rest, name =>
    match findExactMatch d name with
    | some p => some p
    | none =>
      match findByAlias yamlParse d name with
      | some p => some p
      | none =>
        match findFuzzyMatch d name with
        | some p => some p
        | none =>
          match findByContent yamlParse d name with
          | some p => some p
          | none => discoverPrompt yamlParse rest name

theorem findSome?_split {α β : Type} (f : α → Option β) :
    ∀ (l1 : List α) (v : α) (l2 : List α) (p : β),
      (∀ w ∈ l1, f w = none) → f v = some p →
      (l1 ++ v :: l2).findSome? f = some p := by
  intro l1
  induction l1 with
  | nil =>
    intro v l2 p _ hv
    simp [List.findSome?_cons, hv]
  | cons a t ih =>
    intro v l2 p hnone hv
    have ha : f a = none := hnone a (by simp)
    rw [List.cons_append, List.findSome?_cons, ha]
    exact ih v l2 p (fun w hw => hnone w (by simp [hw])) hv

/-- The variation list the claim describes: lower-cased versions of *each*
of the three base variants, including the lower-cased `.txt` variant. -/
def claimedVariations (name : String) : List String :=
  [name, name ++ ".md", name ++ ".txt",
   toLowerStr name, toLowerStr (name ++ ".md"), toLowerStr (name ++ ".txt")]

/-- The exact-match stage as the claim describes it, over
`claimedVariations`. -/
def findExactMatchClaimed (d : Dir) (name : String) : Option String :=
  (claimedVariations name).findSome? (variantCheck d)

/-- Counterexample to C6 as stated: a directory holding only `note.txt`,
queried with `NOTE`.  The claimed variant list (which includes the
lower-cased alternate-extension variant `note.txt`) would find the file;
the code's five-variant list does not, and the exact stage misses. -/
theorem findExactMatch_claim_cex :
    findExactMatch ⟨"p", [⟨"note.txt", true, ""⟩]⟩ "NOTE" = none
    ∧ findExactMatchClaimed ⟨"p", [⟨"note.txt", true, ""⟩]⟩ "NOTE"
        = some "p/note.txt" := by
  constructor
  · rfl
  · rfl

/-- C6 (amended).  The exact-match stage builds exactly the variant list
[name as-is, name + default text extension, name + alternate plain-text
extension, lower-cased name, lower-cased name + default text extension] —
the lower-cased alternate-extension variant is *not* tried — tests the
variants for existence as a readable allowed-type file in that order, and
returns the first variant that exists (tie-break is the variant list
order). -/
theorem findExactMatch_variant_order (d : Dir) (name : String)
    (l1 : List String) (v : String) (l2 : List String) (p : String)
    (hsplit : nameVariations name = l1 ++ v :: l2)
    (hmiss : ∀ w ∈ l1, variantCheck d w = none)
    (hhit : variantCheck d v = some p) :
    nameVariations name
      = [name, name ++ ".md", name ++ ".txt",
         toLowerStr name, toLowerStr name ++ ".md"]
    ∧ findExactMatch d name = some p := by
  refine ⟨rfl, ?_⟩
  unfold findExactMatch
  rw [hsplit]
  exact findSome?_split (variantCheck d) l1 v l2 p hmiss hhit

/-- Witness for C6 (amended): querying `plan` in a directory holding
`plan.md` skips the non-existent as-is variant `plan` and returns
`plan.md`, the first existing variant. -/
theorem findExactMatch_variant_order_w :
    nameVariations "plan"
      = ["plan", "plan.md", "plan.txt", toLowerStr "plan", toLowerStr "plan" ++ ".md"]
    ∧ findExactMatch ⟨"p", [⟨"plan.md", true, ""⟩]⟩ "plan" = some "p/plan.md" :=
  findExactMatch_variant_order ⟨"p", [⟨"plan.md", true, ""⟩]⟩ "plan"
    ["plan"] "plan.md" ["plan.txt", "plan", "plan.md"] "p/plan.md"
    (by decide) (by decide) (by decide)

/-- C1.  Discovery tries the four stages per directory strictly in the
order exact, alias, fuzzy, content (directories in caller order), and the
first stage to yield a match ends the whole search; in particular, when a
directory contains an exact-name match, discovery returns it via the
exact stage, never a differently-named file — even one with a strictly
higher fuzzy score. -/
theorem discoverPrompt_cascade
    (yamlParse : String → Option (List (String × JsValue)))
    (d : Dir) (rest : List Dir) (name : String) (g : Entry) (v p : String) :
    (discoverPrompt yamlParse (d :: rest) name =
      (match findExactMatch d name with
       | some q => some q
       | none =>
         match findByAlias yamlParse d name with
         | some q => some q
         | none =>
           match findFuzzyMatch d name with
           | some q => some q
           | none =>
             match findByContent yamlParse d name with
             | some q => some q
             | none => discoverPrompt yamlParse rest name))
    ∧ (findExactMatch d name = some p →
       p = joinPath d.path v →
       v ∈ nameVariations name →
       g ∈ d.entries →
       g.name ∉ nameVariations name →
       calculateFuzzyScore (toLowerStr name) (toLowerStr g.name) >
         calculateFuzzyScore (toLowerStr name) (toLowerStr v) →
       discoverPrompt yamlParse (d :: rest) name = some p
         ∧ p ≠ joinPath d.path g.name) := by
  constructor
  · rw [discoverPrompt]
  · intro hexact hpv hvmem hgmem hgnotvar _hscore
    constructor
    · rw [discoverPrompt, hexact]
    · intro heq
      have hvg : v = g.name := by
        have hdata : (joinPath d.path v).data = (joinPath d.path g.name).data := by
          rw [← heq, hpv]
        unfold joinPath at hdata
        rw [String.data_append, String.data_append] at hdata
        have := List.append_cancel_left hdata
        exact strEq v g.name this
      rw [hvg] at hvmem
      exact hgnotvar hvmem

/-- Witness for C1: querying `plan.md` in a directory holding `plan.md`
(fuzzy score 0.6 against the query, word overlap after extension
stripping) and `plan.md-x.md` (fuzzy score 0.8 × 7⁄9 ≈ 0.622, a strictly
higher substring match) returns `p/plan.md` via the exact stage. -/
theorem discoverPrompt_cascade_w :
    discoverPrompt (fun _ => none)
        [⟨"p", [⟨"plan.md", true, ""⟩, ⟨"plan.md-x.md", true, ""⟩]⟩] "plan.md"
      = some "p/plan.md"
    ∧ "p/plan.md" ≠ joinPath "p" "plan.md-x.md" := by
  have hscore : calculateFuzzyScore (toLowerStr "plan.md")
        (toLowerStr "plan.md-x.md") >
      calculateFuzzyScore (toLowerStr "plan.md") (toLowerStr "plan.md") := by
    have hl1 : toLowerStr "plan.md" = "plan.md" := by decide
    have hl2 : toLowerStr "plan.md-x.md" = "plan.md-x.md" := by decide
    rw [hl1, hl2]
    have e1 : calculateFuzzyScore "plan.md" "plan.md"
        = 0.6 * (((1 : Nat) : ℚ) / ((1 : Nat) : ℚ)) := by
      norm_num [calculateFuzzyScore,
        show stripExt "plan.md" = "plan" from by decide,
        show countMatchedWords (splitWords "plan.md") (splitWords "plan") = 1
          from by decide,
        show (splitWords "plan.md").length = 1 from by decide,
        show ¬("plan" = "plan.md") from by decide,
        show substrB "plan.md".data "plan".data = false from by decide]
    have e2 : calculateFuzzyScore "plan.md" "plan.md-x.md"
        = 0.8 * (((7 : Nat) : ℚ) / ((9 : Nat) : ℚ)) := by
      norm_num [calculateFuzzyScore,
        show stripExt "plan.md-x.md" = "plan.md-x" from by decide,
        show substrB "plan.md".data "plan.md-x".data = true from by decide,
        show ¬("plan.md-x" = "plan.md") from by decide,
        show ("plan.md".data.length : Nat) = 7 from by decide,
        show ("plan.md-x".data.length : Nat) = 9 from by decide]
    rw [e1, e2]
    norm_num
  exact (discoverPrompt_cascade (fun _ => none)
      ⟨"p", [⟨"plan.md", true, ""⟩, ⟨"plan.md-x.md", true, ""⟩]⟩ [] "plan.md"
      ⟨"plan.md-x.md", true, ""⟩ "plan.md" "p/plan.md").2
    (by decide) (by decide) (by decide) (by decide) (by decide) hscore

/-! ## Variable-spec extraction (`ObsidianUtils.extractVariableSpecs` /
`parseVariableSpec`) -/

/-- JS `a || b` over possibly-undefined values. -/
def jsOr (a b : Option JsValue) : Option JsValue :=
  match a with
  | some v => if truthy v then some v else b
  | none => b

/-- The object's `name` field, when it is a (truthy) string; vault
documents declare names as strings, non-string `name` fields are outside
the model. -/
def objName (o : List (String × JsValue)) : String :=
  match alookup o "name" with
  | some (.vstr s) => if s = "" then "unknown" else s
  | _ => "unknown"

/-- `ObsidianUtils.parseVariableSpec`: normalize one variable declaration
(string shape, object shape, or fallback) into a `VariableSpec`; `name` is
the mapping key when the declaration came from a name→spec object
(`name || spec.name || 'unknown'`, falsy names fall through).  A non-array
`options` field is outside the model (the validator's `includes` call
would fail dynamically on it). -/
def parseVariableSpec (spec : JsValue) (name : Option String) : VariableSpec :=
  match spec with
  | .vstr s =>
    { name := match name with
        | some n => if n = "" then s else n
        | none => s
      type := .vstr "string", required := true }
  | .vobj o =>
    { name := match name with
        | some n => if n = "" then objName o else n
        | none => objName o
      type := match alookup o "type" with
        | some t => if truthy t then t else .vstr "string"
        | none => .vstr "string"
      required := match alookup o "required" with
        | some (.vbool false) => false
        | _ => true
      default := alookup o "default"
      options := match alookup o "options" with
        | some (.varr xs) => some xs
        | _ => none
      description := alookup o "description" }
  | .varr _ =>
    -- an array is `typeof === 'object'` in JS: all property reads yield
    -- `undefined`, so the object shape degenerates to this record
    { name := match name with
        | some n => if n = "" then "unknown" else n
        | none => "unknown"
      type := .vstr "string", required := true }
  | other =>
    { name := match name with
        | some n => if n = "" then jsToString other else n
        | none => jsToString other
      type := .vstr "string", required := true }

/-- `ObsidianUtils.extractVariableSpecs`: read the declaration field from
`prompt-vars`, `variables` or `vars` (first truthy wins), then normalize a
string list, an object list, or a name→spec mapping; any other shape
yields no specs. -/
def extractVariableSpecs (frontmatter : List (String × JsValue)) :
    List VariableSpec :=
  let promptVars := jsOr (alookup frontmatter "prompt-vars")
    (jsOr (alookup frontmatter "variables") (alookup frontmatter "vars"))
  match promptVars with
  | none => []
  | some v =>
    if !truthy v then []
    else
      match v with
      | .varr xs => xs.map (fun sp => parseVariableSpec sp none)
      | .vobj kvs => kvs.map (fun kv => parseVariableSpec kv.2 (some kv.1))
      | _ => []

/-- The variable names referenced by `{{...}}` placeholders, in order. -/
def contentVarNames : List Char → List String
  | [] => []
  | [_] => []
  | c1 :: c2 :: rest =>
    if c1 = '\x7b' ∧ c2 = '\x7b' then
      match h : grabExpr rest with
      | some (expr, rest2) =>
        (⟨trimL (((splitChar ':' expr)).headD [])⟩ : String) ::
          contentVarNames rest2
      | none => contentVarNames (c2 :: rest)
    else contentVarNames (c2 :: rest)
termination_by l => l.length
decreasing_by
  · have := grabExpr_length h; simp; omega
  · simp
  · simp

/-- `ObsidianUtils.extractContentVariables`: every `{{name}}` /
`{{name:default}}` reference in the body, first occurrence kept. -/
def extractContentVariables (content : String) : List String :=
  dedupFirst (contentVarNames content.data)

/-- `PromptManager.collectAllVariables`. -/
def collectAllVariables (content : String)
    (frontmatter : List (String × JsValue)) :
    List String × List VariableSpec :=
  (extractContentVariables content, extractVariableSpecs frontmatter)

/-! ## The `getPrompted` pipeline (`prompts.ts`)

`getPrompted` is embedded from `src/prompts.ts` (the snapshot carrying the
strict-variables mode).  The templater pass and the action
analysis/execution hooks are out-of-scope collaborators (`templates.ts`
and the file-creation helpers) and are taken as function parameters; the
action executor returns `Except` to model that a throwing `executeAction`
is caught per-action and folded into a failure `ExecutionResult`. -/

/-- The `details` payload attached to `missing_required_variables`. -/
structure ErrDetails where
  missing : List String
  errors : List String

/-- A thrown JS error: either a plain `Error` or an `EnhancedMcpError`
with its `code` and optional `details` payload. -/
inductive JsError where
  | plain (message : String)
  | mcp (code : String) (message : String) (details : Option ErrDetails)

def JsError.message : JsError → String
  | .plain m => m
  | .mcp _ m _ => m

/-- `error instanceof EnhancedMcpError ? error.code : 'unknown_error'`. -/
def JsError.codeOf : JsError → String
  | .plain _ => "unknown_error"
  | .mcp c _ _ => c

def JsError.detailsOf : JsError → Option ErrDetails
  | .plain _ => none
  | .mcp _ _ d => d

/-- The `error` field of a `GetPromptedResult`. -/
structure ErrObj where
  code : String
  message : String
  details : Option ErrDetails

structure ActionRecommendation where
  type : String
  confidence : ℚ
  autoExecutable : Bool

structure ExecutionResult where
  actionType : String
  success : Bool
  message : String

/-- The `GetPromptedResult` payload, restricted to the fields the
verification concerns (`chosen`, `candidates`, `unresolvedLinks` and
`processing` are display metadata derived from the same inputs and are
omitted from the model). -/
structure GetPromptedResult where
  resolved : Bool
  autoApplyRecommended : Bool
  confidence : ℚ
  content : String
  variablesUsed : List (String × JsValue)
  missingVariables : List VariableSpec
  actionRecommendations : List ActionRecommendation
  autoExecuted : Bool
  executionResults : List ExecutionResult
  error : Option ErrObj := none

/-- `PromptManager.createErrorResult`. -/
def createErrorResult (error : JsError) : GetPromptedResult :=
  { resolved := false
    autoApplyRecommended := false
    confidence := 0
    content := ""
    variablesUsed := []
    missingVariables := []
    actionRecommendations := []
    autoExecuted := false
    executionResults := []
    error := some ⟨error.codeOf, error.message, error.detailsOf⟩ }

/-- `PromptManager.convertMissingVariablesToSpecs`. -/
def convertMissingVariablesToSpecs (missingVariables : List String)
    (frontmatter : List (String × JsValue)) : List VariableSpec :=
  let specs := extractVariableSpecs frontmatter
  missingVariables.map (fun varName =>
    match specs.find? (fun spec => spec.name = varName) with
    | some s => s
    | none =>
      { name := varName, type := .vstr "string", required := true
        description := some (.vstr ("Missing variable: " ++ varName)) })

/-- `PromptManager.createSuccessResult` (modelled fields). -/
def createSuccessResult (processedContent : String)
    (usedVariables : List (String × JsValue)) (missingVariables : List String)
    (frontmatter : List (String × JsValue))
    (actionRecommendations : List ActionRecommendation)
    (executionResults : List ExecutionResult) : GetPromptedResult :=
  { resolved := true
    autoApplyRecommended := true
    confidence := 1
    content := processedContent
    variablesUsed := usedVariables
    missingVariables := convertMissingVariablesToSpecs missingVariables frontmatter
    actionRecommendations := actionRecommendations
    autoExecuted := 0 < executionResults.length
    executionResults := executionResults
    error := none }

/-- The Phase-1 stubs of `prompts.ts`: alias, fuzzy and content discovery
return `null`. -/
def findByAliasP1 (_d : Dir) (_name : String) : Option String := none

def findFuzzyMatchP1 (_d : Dir) (_name : String) : Option String := none

def findByContentP1 (_d : Dir) (_name : String) : Option String := none

/-- `discoverPrompt` as in `prompts.ts`: the same four-stage loop with the
three stubbed stages, throwing `Prompt not found` after the loop. -/
def discoverPromptP1 (dirs : List Dir) (name : String) : Except JsError String :=
  match dirs.findSome? (fun d =>
    match findExactMatch d name with
    | some p => some p
    | none =>
      match findByAliasP1 d name with
      | some p => some p
      | none =>
        match findFuzzyMatchP1 d name with
        | some p => some p
        | none => findByContentP1 d name) with
  | some p => .ok p
  | none => .error (.plain ("Prompt not found: " ++ name))

/-- `readFile` answered from the modelled search directories. -/
def readFileFS (dirs : List Dir) (path : String) : Except JsError String :=
  match dirs.findSome? (fun d => d.entries.findSome? (fun e =>
      if joinPath d.path e.name = path && e.isFile then some e.content
      else none)) with
  | some c => .ok c
  | none => .error (.plain
      ("ENOENT: no such file or directory, open '" ++ path ++ "'"))

/-- `PromptManager.loadPromptFile`: read and parse, wrapping any error. -/
def loadPromptFile (yamlParse : String → Option (List (String × JsValue)))
    (dirs : List Dir) (filePath : String) :
    Except JsError (String × List (String × JsValue)) :=
  match readFileFS dirs filePath with
  | .ok content =>
    let parsed := parseObsidianFile yamlParse content
    .ok (parsed.content, parsed.frontmatter)
  | .error e => .error (.plain
      ("Failed to load prompt file '" ++ filePath ++ "': " ++ e.message))

/-- `PromptManager.validateVariables` (the wrapper that maps the missing
specs to their names; the spec list is always an array here). -/
def validateVariablesWrapper (dateOk : JsValue → Bool)
    (specs : List VariableSpec) (providedVars : List (String × JsValue)) :
    Bool × List String × List String :=
  let validation := validateVariables dateOk specs providedVars
  (validation.isValid, validation.missing.map (fun s => s.name), validation.errors)

/-- The options of a `getPrompted` call (`PromptOptions`). -/
structure PromptOptions where
  includeWikilinks : Bool := false
  processTemplater : Option Bool := none
  searchPaths : Option (List Dir) := none
  strictVariables : Bool := false

/-- The configuration slice `getPrompted` reads. -/
structure VaultConfig where
  promptsDir : Dir
  templatesDir : Dir
  templaterLite : Bool

/-- The body of `getPrompted`'s `try` block, as an `Except`: every `throw`
becomes `.error`.  `templater` models `resolveTemplaterSyntax`, `analyze`
models `analyzeForActions` and `execute` models `executeAction` (its
per-action `try/catch` folds a thrown error into a failure record). -/
def getPromptedAux (yamlParse : String → Option (List (String × JsValue)))
    (dateOk : JsValue → Bool)
    (templater : String → List (String × JsValue) → String → String)
    (analyze : String → List (String × JsValue) → String →
      List ActionRecommendation)
    (execute : ActionRecommendation → Except JsError ExecutionResult)
    (cfg : VaultConfig) (promptName : String)
    (vars : List (String × JsValue)) (opts : PromptOptions) :
    Except JsError GetPromptedResult :=
  let paths := opts.searchPaths.getD [cfg.promptsDir, cfg.templatesDir]
  match discoverPromptP1 paths promptName with
  | .error e => .error e
  | .ok promptPath =>
    -- `if (!promptPath) throw ...` (unreachable: discovery throws instead
    -- of returning a falsy path, but the check is part of the source)
    if promptPath = "" then
      .error (.mcp "prompt_not_found"
        ("Prompt '" ++ promptName ++ "' not found in search paths") none)
    else
      match loadPromptFile yamlParse paths promptPath with
      | .error e => .error e
      | .ok (content, frontmatter) =>
        let specVariables := (collectAllVariables content frontmatter).2
        let mergedVariables := mergeVariablesWithDefaults vars specVariables
        -- steps 5–8 (templater, substitution, actions, success result)
        let finish : Unit → GetPromptedResult := fun _ =>
          let processedContent :=
            if (match opts.processTemplater with
                | some false => false
                | _ => true) && cfg.templaterLite then
              templater content mergedVariables promptPath
            else content
          let substitutionResult :=
            substituteVariables processedContent mergedVariables
          let actionRecommendations :=
            analyze substitutionResult.content mergedVariables promptPath
          let autoExecutable := actionRecommendations.filter
            (fun a => a.autoExecutable && a.confidence > 0.8)
          let executionResults := autoExecutable.map (fun action =>
            match execute action with
            | .ok r => r
            | .error err =>
              { actionType := action.type, success := false
                message := "Failed to execute " ++ action.type ++ ": " ++
                  err.message })
          createSuccessResult substitutionResult.content
            substitutionResult.usedVariables
            substitutionResult.missingVariables frontmatter
            actionRecommendations executionResults
        -- step 4: validation (strict mode turns failures into a throw)
        if opts.strictVariables || 0 < specVariables.length then
          let validation :=
            validateVariablesWrapper dateOk specVariables mergedVariables
          if !validation.1 && opts.strictVariables then
            .error (.mcp "missing_required_variables"
              ("Missing required variables: " ++ joinSep ", " validation.2.1)
              (some ⟨validation.2.1, validation.2.2⟩))
          else .ok (finish ())
        else .ok (finish ())

/-- `PromptManager.getPrompted`: the surrounding `try/catch` returns a
structured error result for every thrown error. -/
def getPrompted (yamlParse : String → Option (List (String × JsValue)))
    (dateOk : JsValue → Bool)
    (templater : String → List (String × JsValue) → String → String)
    (analyze : String → List (String × JsValue) → String →
      List ActionRecommendation)
    (execute : ActionRecommendation → Except JsError ExecutionResult)
    (cfg : VaultConfig) (promptName : String)
    (vars : List (String × JsValue)) (opts : PromptOptions) :
    GetPromptedResult :=
  match getPromptedAux yamlParse dateOk templater analyze execute cfg
      promptName vars opts with
  | .ok r => r
  | .error e => createErrorResult e

theorem getPromptedAux_ok_resolved
    (yamlParse : String → Option (List (String × JsValue)))
    (dateOk : JsValue → Bool)
    (templater : String → List (String × JsValue) → String → String)
    (analyze : String → List (String × JsValue) → String →
      List ActionRecommendation)
    (execute : ActionRecommendation → Except JsError ExecutionResult)
    (cfg : VaultConfig) (promptName : String)
    (vars : List (String × JsValue)) (opts : PromptOptions)
    (res : GetPromptedResult)
    (h : getPromptedAux yamlParse dateOk templater analyze execute cfg
      promptName vars opts = .ok res) :
    res.resolved = true ∧ res.error = none := by
  simp only [getPromptedAux] at h
  split at h
  · simp at h
  · split at h
    · simp at h
    · split at h
      · simp at h
      · split at h
        · split at h
          · simp at h
          · simp at h
            rw [← h]
            exact ⟨rfl, rfl⟩
        · simp at h
          rw [← h]
          exact ⟨rfl, rfl⟩

/-- C7: a failed resolution — discovery exhausted with not-found, or
strict mode with missing required variables — returns a structured error
result (code, message, optional details payload) with `resolved = false`,
and `getPrompted` never throws past its boundary: every call returns a
result that is either resolved with no error or unresolved with a
structured error attached. -/
theorem getPrompted_structured_errors
    (yamlParse : String → Option (List (String × JsValue)))
    (dateOk : JsValue → Bool)
    (templater : String → List (String × JsValue) → String → String)
    (analyze : String → List (String × JsValue) → String →
      List ActionRecommendation)
    (execute : ActionRecommendation → Except JsError ExecutionResult)
    (cfg : VaultConfig) (promptName : String)
    (vars : List (String × JsValue)) (opts : PromptOptions)
    (res : GetPromptedResult) (paths : List Dir)
    (hpaths : paths = opts.searchPaths.getD [cfg.promptsDir, cfg.templatesDir])
    (hres : res = getPrompted yamlParse dateOk templater analyze execute cfg
      promptName vars opts) :
    ((res.resolved = true ∧ res.error = none) ∨
      (res.resolved = false ∧ ¬res.error = none)) ∧
    (∀ e, discoverPromptP1 paths promptName = .error e →
      res = createErrorResult e ∧ res.resolved = false ∧
      res.error = some ⟨JsError.codeOf e, JsError.message e,
        JsError.detailsOf e⟩) ∧
    (∀ p content fm, discoverPromptP1 paths promptName = .ok p →
      ¬p = "" →
      loadPromptFile yamlParse paths p = .ok (content, fm) →
      opts.strictVariables = true →
      ∀ ok missing errs,
        validateVariablesWrapper dateOk ((collectAllVariables content fm).2)
          (mergeVariablesWithDefaults vars
            ((collectAllVariables content fm).2)) = (ok, missing, errs) →
        ok = false →
        res = createErrorResult (.mcp "missing_required_variables"
          ("Missing required variables: " ++ joinSep ", " missing)
          (some ⟨missing, errs⟩)) ∧
        res.resolved = false ∧
        res.error = some ⟨"missing_required_variables",
          "Missing required variables: " ++ joinSep ", " missing,
          some ⟨missing, errs⟩⟩) := by
  subst hpaths hres
  refine ⟨?_, ?_, ?_⟩
  · cases haux : getPromptedAux yamlParse dateOk templater analyze execute
        cfg promptName vars opts with
    | ok r =>
      left
      have h2 := getPromptedAux_ok_resolved yamlParse dateOk templater
        analyze execute cfg promptName vars opts r haux
      simp only [getPrompted, haux]
      exact h2
    | error e =>
      right
      simp only [getPrompted, haux]
      exact ⟨rfl, by simp [createErrorResult]⟩
  · intro e hdisc
    have hgp : getPrompted yamlParse dateOk templater analyze execute cfg
        promptName vars opts = createErrorResult e := by
      simp only [getPrompted, getPromptedAux, hdisc]
    exact ⟨hgp, by rw [hgp]; rfl, by rw [hgp]; rfl⟩
  · intro p content fm hdisc hp hload hstrict ok missing errs hval hok
    have hgp : getPrompted yamlParse dateOk templater analyze execute cfg
        promptName vars opts = createErrorResult (.mcp
          "missing_required_variables"
          ("Missing required variables: " ++ joinSep ", " missing)
          (some ⟨missing, errs⟩)) := by
      simp only [getPrompted, getPromptedAux, hdisc, if_neg hp, hload,
        hstrict, Bool.true_or, if_true, hval, hok, Bool.not_false,
        Bool.true_and, Bool.and_true]
    exact ⟨hgp, by rw [hgp]; rfl, by rw [hgp]; rfl⟩

/-- Witness for C7: a vault with one prompt file declaring a required
`topic` variable, called with no bindings in strict mode, yields an
unresolved result carrying the structured `missing_required_variables`
error. -/
theorem getPrompted_structured_errors_w :
    (getPrompted
        (fun _ => some [("prompt-vars", JsValue.varr [JsValue.vstr "topic"])])
        (fun _ => true) (fun c _ _ => c) (fun _ _ _ => [])
        (fun a => Except.ok ⟨a.type, true, ""⟩)
        ⟨⟨"p", [⟨"f.md", true, "---\nx\n---\nHello"⟩]⟩, ⟨"t", []⟩, false⟩
        "f" [] ⟨false, none, none, true⟩).resolved = false ∧
    (getPrompted
        (fun _ => some [("prompt-vars", JsValue.varr [JsValue.vstr "topic"])])
        (fun _ => true) (fun c _ _ => c) (fun _ _ _ => [])
        (fun a => Except.ok ⟨a.type, true, ""⟩)
        ⟨⟨"p", [⟨"f.md", true, "---\nx\n---\nHello"⟩]⟩, ⟨"t", []⟩, false⟩
        "f" [] ⟨false, none, none, true⟩).error =
      some ⟨"missing_required_variables",
        "Missing required variables: topic", some ⟨["topic"], []⟩⟩ := by
  have h := (getPrompted_structured_errors
      (fun _ => some [("prompt-vars", JsValue.varr [JsValue.vstr "topic"])])
      (fun _ => true) (fun c _ _ => c) (fun _ _ _ => [])
      (fun a => Except.ok ⟨a.type, true, ""⟩)
      ⟨⟨"p", [⟨"f.md", true, "---\nx\n---\nHello"⟩]⟩, ⟨"t", []⟩, false⟩
      "f" [] ⟨false, none, none, true⟩ _ _ rfl rfl).2.2
      "p/f.md" "Hello" [("prompt-vars", JsValue.varr [JsValue.vstr "topic"])]
      rfl (by decide) rfl rfl false ["topic"] [] rfl rfl
  exact ⟨h.2.1, h.2.2⟩

end TamFS
